import Mathlib

/-!
# SimpleVector

A shallow embedding of `simple-vector/simple_vector.h` (class template `SimpleVector<Type>`)
and theorems about it.

* A vector is the triple of its three data members `items_`, `size_`, `capacity_`.
* `size_t` values are natural numbers.  The only arithmetic on them is `2 * capacity_`,
  `size_ + 1` and `size_ - 1`; a block of `2^63` slots cannot be allocated, so none of them
  wraps on a vector that exists.
* Cursors (`Iterator`, `ConstIterator`) are raw pointers into the block owned by `items_`; a
  cursor is modelled by its offset from `items_.Get()`, so `begin()` is `0` and `end()` is `size_`.
* An operation that would read or write outside an allocated block, or whose `assert` fails,
  returns `Fault.Undefined`; the exception thrown by `At` is `Fault.OutOfRange`.
* Assigning an element, by copy or by `std::move`, stores the value in the destination slot.  The
  source slot of a move is left as it was, which is what a move does for an element type such as
  `int`.
* `PushBack(Type&&)` and both overloads of `Insert` take their argument by reference, and the
  body reads it after elements were shifted or the block was replaced.  The argument is
  therefore an `Arg`: an object outside the vector's block, or a slot of that block.
* `PushBack(const Type&)` has no embedding: its body initializes `auto new_capacity` from the
  call `Reserve(...)` of the member `void Reserve(size_t)`, so the overload cannot be
  instantiated and no call reaches it.
-/

/-- How an operation can fail to return a value. -/
inductive Fault where
  /-- The exception `std::out_of_range` thrown by `At`. -/
  | OutOfRange
  /-- Undefined behaviour: an access outside an allocated block or a failed `assert`. -/
  | Undefined
  deriving DecidableEq, Repr

/-- Equality of results is decidable, so that concrete runs can be evaluated. -/
instance instDecidableEqExceptResult {ε α : Type} [DecidableEq ε] [DecidableEq α] :
    DecidableEq (Except ε α)
  | .ok a, .ok b =>
    if h : a = b then isTrue (by rw [h]) else isFalse (fun h' => by cases h'; exact h rfl)
  | .error a, .error b =>
    if h : a = b then isTrue (by rw [h]) else isFalse (fun h' => by cases h'; exact h rfl)
  | .ok _, .error _ => isFalse (fun h' => by cases h')
  | .error _, .ok _ => isFalse (fun h' => by cases h')

/-- Modelled from the spec: `array_ptr.h` (class template `ArrayPtr`) is not among the sources.
The spec calls it a thin owned heap block: "allocate N slots, release on destruction, support
ownership transfer".  A block is the list of its slots.  Allocation gives a slot no specified
content, so a slot is `none` until a value is assigned to it. -/
abbrev ArrayPtr (T : Type) := List (Option T)

/-- Modelled from the spec: the default-constructed `ArrayPtr`, which owns no slot. -/
def ArrayPtr.null {T : Type} : ArrayPtr T := []

/-- Modelled from the spec: `ArrayPtr(n)`, "allocate N slots". -/
def ArrayPtr.alloc {T : Type} (n : Nat) : ArrayPtr T := List.replicate n none

/-- The loop of `std::copy` and of `std::move` between two different blocks:
`n` times `*d++ = *first++`. -/
def copyLoop {S : Type} (src dst : List S) (first d : Nat) : Nat → List S
  | 0 => dst
  | n + 1 =>
    match src[first]? with
    | some s => copyLoop src (dst.set d s) (first + 1) (d + 1) n
    | none => dst

/-- The loop of `std::move` when source and destination lie in the same block:
`n` times `*d++ = *first++`, each read seeing the writes made before it. -/
def moveLoopWithin {S : Type} (buf : List S) (first d : Nat) : Nat → List S
  | 0 => buf
  | n + 1 =>
    match buf[first]? with
    | some s => moveLoopWithin (buf.set d s) (first + 1) (d + 1) n
    | none => buf

/-- The loop of `std::move_backward` between two different blocks:
`n` times `*--d_last = *--last`. -/
def moveBackwardLoop {S : Type} (src dst : List S) (last d_last : Nat) : Nat → List S
  | 0 => dst
  | n + 1 =>
    match src[last - 1]? with
    | some s => moveBackwardLoop src (dst.set (d_last - 1) s) (last - 1) (d_last - 1) n
    | none => dst

/-- The loop of `std::move_backward` when source and destination lie in the same block:
`n` times `*--d_last = *--last`, each read seeing the writes made before it. -/
def moveBackwardLoopWithin {S : Type} (buf : List S) (last d_last : Nat) : Nat → List S
  | 0 => buf
  | n + 1 =>
    match buf[last - 1]? with
    | some s => moveBackwardLoopWithin (buf.set (d_last - 1) s) (last - 1) (d_last - 1) n
    | none => buf

/-- The loop of `std::fill`, and the loop of `Resize`: `n` times `*first++ = value`. -/
def fillLoop {T : Type} (buf : ArrayPtr T) (first : Nat) (value : T) : Nat → ArrayPtr T
  | 0 => buf
  | n + 1 => fillLoop (buf.set first (some value)) (first + 1) value n

/-- `std::copy(&src[first], &src[last], &dst[d])`, also `std::move` with the same arguments,
for two different blocks.  Defined when `[first, last)` is a range of `src` and the
destination range `[d, d + (last - first))` lies in `dst`. -/
def std_copy {S : Type} (src : List S) (first last : Nat) (dst : List S) (d : Nat) :
    Except Fault (List S) :=
  if first ≤ last ∧ last ≤ src.length ∧ d + (last - first) ≤ dst.length then
    .ok (copyLoop src dst first d (last - first))
  else .error .Undefined

/-- `std::move(&buf[first], &buf[last], &buf[d])` inside one block. -/
def std_move_within {S : Type} (buf : List S) (first last d : Nat) : Except Fault (List S) :=
  if first ≤ last ∧ last ≤ buf.length ∧ d + (last - first) ≤ buf.length then
    .ok (moveLoopWithin buf first d (last - first))
  else .error .Undefined

/-- `std::move_backward(&src[first], &src[last], &dst[d_last])` for two different blocks.
Defined when `[first, last)` is a range of `src` and the destination range
`[d_last - (last - first), d_last)` lies in `dst`. -/
def std_move_backward {S : Type} (src : List S) (first last : Nat) (dst : List S)
    (d_last : Nat) : Except Fault (List S) :=
  if first ≤ last ∧ last ≤ src.length ∧ last - first ≤ d_last ∧ d_last ≤ dst.length then
    .ok (moveBackwardLoop src dst last d_last (last - first))
  else .error .Undefined

/-- `std::move_backward(&buf[first], &buf[last], &buf[d_last])` inside one block. -/
def std_move_backward_within {S : Type} (buf : List S) (first last d_last : Nat) :
    Except Fault (List S) :=
  if first ≤ last ∧ last ≤ buf.length ∧ last - first ≤ d_last ∧ d_last ≤ buf.length then
    .ok (moveBackwardLoopWithin buf last d_last (last - first))
  else .error .Undefined

/-- `std::fill(&buf[first], &buf[last], value)`; also the loop of `Resize`, which runs a cursor
from `&items_[size_]` to `&items_[new_size]` and assigns `Type{}` through it. -/
def std_fill {T : Type} (buf : ArrayPtr T) (first last : Nat) (value : T) :
    Except Fault (ArrayPtr T) :=
  if first ≤ last ∧ last ≤ buf.length then .ok (fillLoop buf first value (last - first))
  else .error .Undefined

/-- The assignment `arr_ptr[index] = value` through `ArrayPtr::operator[]`. -/
def assignSlot {T : Type} (buf : ArrayPtr T) (index : Nat) (value : T) :
    Except Fault (ArrayPtr T) :=
  if index < buf.length then .ok (buf.set index (some value)) else .error .Undefined

/-- The loop of `std::equal(first1, last1, first2)`: for each of the `n` positions, return
`false` when `!(*first1 == *first2)`; return `true` after the last one. -/
def equalLoop {T : Type} [BEq T] (xs ys : ArrayPtr T) (first1 first2 : Nat) :
    Nat → Except Fault Bool
  | 0 => .ok true
  | n + 1 =>
    match xs[first1]?, ys[first2]? with
    | some (some x), some (some y) =>
      if x == y then equalLoop xs ys (first1 + 1) (first2 + 1) n else .ok false
    | _, _ => .error .Undefined

/-- The loop of `std::lexicographical_compare(first1, last1, first2, last2)`, with `n1` and `n2`
positions left in the two ranges: while both ranges have a position left, return `true` when
`*first1 < *first2` and `false` when `*first2 < *first1`; at the end return
`(first1 == last1) && (first2 != last2)`. -/
def lexicographicalCompareLoop {T : Type} [LT T] [∀ x y : T, Decidable (x < y)]
    (xs ys : ArrayPtr T) (first1 first2 : Nat) : Nat → Nat → Except Fault Bool
  | 0, n2 => .ok (decide (n2 ≠ 0))
  | _ + 1, 0 => .ok false
  | n1 + 1, n2 + 1 =>
    match xs[first1]?, ys[first2]? with
    | some (some x), some (some y) =>
      if x < y then .ok true
      else if y < x then .ok false
      else lexicographicalCompareLoop xs ys (first1 + 1) (first2 + 1) n1 n2
    | _, _ => .error .Undefined

/-- `std::equal(&xs[first1], &xs[last1], &ys[first2])`.  Defined when `[first1, last1)` is a
range of `xs` and the range of the same length from `first2` lies in `ys`. -/
def std_equal {T : Type} [BEq T] (xs : ArrayPtr T) (first1 last1 : Nat) (ys : ArrayPtr T)
    (first2 : Nat) : Except Fault Bool :=
  if first1 ≤ last1 ∧ last1 ≤ xs.length ∧ first2 + (last1 - first1) ≤ ys.length then
    equalLoop xs ys first1 first2 (last1 - first1)
  else .error .Undefined

/-- `std::lexicographical_compare(&xs[first1], &xs[last1], &ys[first2], &ys[last2])`.  Defined
when `[first1, last1)` is a range of `xs` and `[first2, last2)` a range of `ys`. -/
def std_lexicographical_compare {T : Type} [LT T] [∀ x y : T, Decidable (x < y)]
    (xs : ArrayPtr T) (first1 last1 : Nat) (ys : ArrayPtr T) (first2 last2 : Nat) :
    Except Fault Bool :=
  if first1 ≤ last1 ∧ last1 ≤ xs.length ∧ first2 ≤ last2 ∧ last2 ≤ ys.length then
    lexicographicalCompareLoop xs ys first1 first2 (last1 - first1) (last2 - first2)
  else .error .Undefined

/-- An argument passed by reference (`const Type&` or `Type&&`): an object that is not a slot of
the vector's block, or the slot of the vector's block at an offset from `items_.Get()`. -/
inductive Arg (T : Type) where
  /-- A reference to an object outside the block, holding `x`. -/
  | object (x : T)
  /-- A reference to the slot `items_[index]` of the vector the call is made on. -/
  | element (index : Nat)
  deriving DecidableEq, Repr

/-- Reading through a reference argument.  `block` is the block the vector owned when the call
was made, with the contents it has at the time of the read; it is `none` once that block has
been released. -/
def Arg.read {T : Type} (arg : Arg T) (block : Option (ArrayPtr T)) : Except Fault T :=
  match arg, block with
  | .object x, _ => .ok x
  | .element index, some b =>
    match b[index]? with
    | some (some x) => .ok x
    | _ => .error .Undefined
  | .element _, none => .error .Undefined

/-- The data members of `SimpleVector<Type>`. -/
structure SimpleVector (T : Type) where
  /-- The owned block, `ArrayPtr<Type> items_`. -/
  items_ : ArrayPtr T
  /-- The member `size_t size_`. -/
  size_ : Nat
  /-- The member `size_t capacity_`. -/
  capacity_ : Nat
  deriving DecidableEq, Repr

namespace SimpleVector

variable {T : Type}

/-- `SimpleVector() noexcept = default`: the default member initializers. -/
def mkDefault : SimpleVector T := ⟨ArrayPtr.null, 0, 0⟩

/-- `SimpleVector(size_t size, const Type& value)`. -/
def ofSizeValue (size : Nat) (value : T) : Except Fault (SimpleVector T) := do
  let items ← std_fill (ArrayPtr.alloc size) 0 size value
  pure ⟨items, size, size⟩

/-- `explicit SimpleVector(size_t size)`, which delegates with `Type()`. -/
def ofSize [Inhabited T] (size : Nat) : Except Fault (SimpleVector T) :=
  ofSizeValue size default

/-- `SimpleVector(std::initializer_list<Type> init)`. -/
def ofInit (init : List T) : Except Fault (SimpleVector T) := do
  let items ← std_copy (init.map some) 0 init.length (ArrayPtr.alloc init.length) 0
  pure ⟨items, init.length, init.length⟩

/-- `SimpleVector(const SimpleVector& other)`.  The member initializer list names `items_` and
`size_` only, so `capacity_` keeps its default member initializer `0`. -/
def copy (other : SimpleVector T) : Except Fault (SimpleVector T) := do
  let items ← std_copy other.items_ 0 other.size_ (ArrayPtr.alloc other.capacity_) 0
  pure ⟨items, other.size_, 0⟩

/-- `void swap(SimpleVector& other) noexcept`; the result is `(*this, other)` after the call. -/
def swap (self other : SimpleVector T) : SimpleVector T × SimpleVector T :=
  (⟨other.items_, other.size_, other.capacity_⟩, ⟨self.items_, self.size_, self.capacity_⟩)

/-- `SimpleVector(SimpleVector&& other)`: the members are default-initialized, then
`swap(other)`.  The result is the new vector and `other` after the call. -/
def move (other : SimpleVector T) : SimpleVector T × SimpleVector T :=
  swap mkDefault other

/-- `void Reserve(size_t new_capacity)`. -/
def Reserve (v : SimpleVector T) (new_capacity : Nat) : Except Fault (SimpleVector T) :=
  if new_capacity > v.capacity_ then do
    let arr_ptr ← std_copy v.items_ 0 v.size_ (ArrayPtr.alloc new_capacity) 0
    pure ⟨arr_ptr, v.size_, new_capacity⟩
  else pure v

/-- `explicit SimpleVector(ReserveProxyObj obj)`: the members are default-initialized, then
`Reserve(obj.GetCapacity())`; a `ReserveProxyObj` holds the one number it returns. -/
def ofReserve (capacity_to_reserve : Nat) : Except Fault (SimpleVector T) :=
  Reserve mkDefault capacity_to_reserve

/-- `operator=(const SimpleVector& rhs)`.  `sameObject` tells whether `&items_ == &rhs.items_`,
that is whether `rhs` is `*this`; the temporary `copy` is dropped at the end of the block. -/
def assign (sameObject : Bool) (self rhs : SimpleVector T) : Except Fault (SimpleVector T) :=
  if sameObject then pure self
  else do
    let copy ← SimpleVector.copy rhs
    pure (swap self copy).1

/-- `operator[](size_t index)`: `items_[index]`, unchecked.  Reading a slot outside the block,
or one nothing was ever assigned to, is undefined. -/
def idx (v : SimpleVector T) (index : Nat) : Except Fault T :=
  match v.items_[index]? with
  | some (some x) => .ok x
  | _ => .error .Undefined

/-- `const Type& At(size_t index) const`. -/
def AtConst (v : SimpleVector T) (index : Nat) : Except Fault T :=
  if index ≥ v.size_ then .error .OutOfRange else idx v index

/-- `Type& At(size_t index)`, a non-const member: the result and the vector after the call. -/
def At (v : SimpleVector T) (index : Nat) : Except Fault T × SimpleVector T :=
  (if index ≥ v.size_ then .error .OutOfRange else idx v index, v)

/-- `begin()` and `cbegin()`, as an offset from `items_.Get()`. -/
def begin_ (_v : SimpleVector T) : Nat := 0

/-- `end()` and `cend()`, as an offset from `items_.Get()`. -/
def end_ (v : SimpleVector T) : Nat := v.size_

/-- `size_t GetSize() const noexcept`. -/
def GetSize (v : SimpleVector T) : Nat := v.size_

/-- `size_t GetCapacity() const noexcept`. -/
def GetCapacity (v : SimpleVector T) : Nat := v.capacity_

/-- `bool IsEmpty() const noexcept`. -/
def IsEmpty (v : SimpleVector T) : Bool := v.size_ == 0

/-- `void Clear() noexcept`. -/
def Clear (v : SimpleVector T) : SimpleVector T := { v with size_ := 0 }

/-- `void Resize(size_t new_size)`. -/
def Resize [Inhabited T] (v : SimpleVector T) (new_size : Nat) : Except Fault (SimpleVector T) :=
  if new_size = v.size_ then pure v
  else if new_size < v.size_ then pure { v with size_ := new_size }
  else do
    let v1 ← if new_size > v.capacity_ then Reserve v (max new_size (2 * v.capacity_)) else pure v
    let items ← std_fill v1.items_ v1.size_ new_size default
    pure ⟨items, new_size, v1.capacity_⟩

/-- `void PushBack(Type&& item)`.  In the growing branch `Reserve` runs first; when it
reallocates, the block `item` may refer into is released before `item` is read. -/
def PushBackMove (v : SimpleVector T) (item : Arg T) : Except Fault (SimpleVector T) :=
  if v.size_ < v.capacity_ then do
    let x ← item.read (some v.items_)
    let items ← assignSlot v.items_ v.size_ x
    pure ⟨items, v.size_ + 1, v.capacity_⟩
  else do
    let v1 ← Reserve v (max 1 (2 * v.capacity_))
    let x ← item.read (if max 1 (2 * v.capacity_) > v.capacity_ then none else some v1.items_)
    let items ← assignSlot v1.items_ v1.size_ x
    pure ⟨items, v1.size_ + 1, v1.capacity_⟩

/-- `Insert(ConstIterator pos, const Type& value)` and `Insert(ConstIterator pos, Type&& value)`:
the two bodies differ only in `std::move(value)`.  `pos` is the offset of the cursor from
`begin()`, which is what `pos_element` holds; the result is the vector after the call and the
offset of the returned cursor `&items_[pos_element]`.  `value` is read by `insertItemAtPos`:
in the first branch after `std::move_backward` has shifted the elements of the block, in the
second branch from the old block, which is still owned by `items_` at that point. -/
def Insert (v : SimpleVector T) (pos : Nat) (value : Arg T) :
    Except Fault (SimpleVector T × Nat) :=
  if pos ≤ v.size_ then
    if v.size_ < v.capacity_ then do
      let items ← std_move_backward_within v.items_ pos v.size_ (v.size_ + 1)
      let x ← value.read (some items)
      let items ← assignSlot items pos x
      pure (⟨items, v.size_ + 1, v.capacity_⟩, pos)
    else do
      let new_capacity := max 1 (2 * v.capacity_)
      let arr_ptr ← std_copy v.items_ 0 pos (ArrayPtr.alloc new_capacity) 0
      let arr_ptr ← std_move_backward v.items_ pos v.size_ arr_ptr (v.size_ + 1)
      let x ← value.read (some v.items_)
      let arr_ptr ← assignSlot arr_ptr pos x
      pure (⟨arr_ptr, v.size_ + 1, new_capacity⟩, pos)
  else .error .Undefined

/-- `void PopBack() noexcept`, with its `assert(!IsEmpty())`. -/
def PopBack (v : SimpleVector T) : Except Fault (SimpleVector T) :=
  if v.IsEmpty then .error .Undefined else pure { v with size_ := v.size_ - 1 }

/-- `Iterator Erase(ConstIterator pos)`, with its `assert(pos != this->end())`.  `pos` is the
offset of the cursor from `items_.Get()`, which is what `count` holds; the result is the vector
after the call and the offset of the returned cursor `&items_[count]`. -/
def Erase (v : SimpleVector T) (pos : Nat) : Except Fault (SimpleVector T × Nat) :=
  if pos = v.end_ then .error .Undefined
  else do
    let items ← std_move_within v.items_ (pos + 1) v.size_ pos
    pure (⟨items, v.size_ - 1, v.capacity_⟩, pos)

/-- Run `PushBack(Type&&)` once for every entry of `calls`, in order; an entry is the argument
of the call. -/
def pushBackAll (v : SimpleVector T) : List (Arg T) → Except Fault (SimpleVector T)
  | [] => pure v
  | c :: calls => do
    let v1 ← PushBackMove v c
    pushBackAll v1 calls

/-- The free function `operator==`. -/
def operatorEq [BEq T] (lhs rhs : SimpleVector T) : Except Fault Bool :=
  if lhs.GetSize != rhs.GetSize then pure false
  else std_equal lhs.items_ lhs.begin_ lhs.end_ rhs.items_ rhs.begin_

/-- The free function `operator!=`: `!(lhs == rhs)`. -/
def operatorNe [BEq T] (lhs rhs : SimpleVector T) : Except Fault Bool := do
  let r ← operatorEq lhs rhs
  pure (!r)

/-- The free function `operator<`. -/
def operatorLt [LT T] [∀ x y : T, Decidable (x < y)] (lhs rhs : SimpleVector T) :
    Except Fault Bool :=
  std_lexicographical_compare lhs.items_ lhs.begin_ lhs.end_ rhs.items_ rhs.begin_ rhs.end_

/-- The free function `operator<=`: `!(rhs < lhs)`. -/
def operatorLe [LT T] [∀ x y : T, Decidable (x < y)] (lhs rhs : SimpleVector T) :
    Except Fault Bool := do
  let r ← operatorLt rhs lhs
  pure (!r)

/-- The free function `operator>`: `!(lhs <= rhs)`. -/
def operatorGt [LT T] [∀ x y : T, Decidable (x < y)] (lhs rhs : SimpleVector T) :
    Except Fault Bool := do
  let r ← operatorLe lhs rhs
  pure (!r)

/-- The free function `operator>=`: `!(lhs < rhs)`. -/
def operatorGe [LT T] [∀ x y : T, Decidable (x < y)] (lhs rhs : SimpleVector T) :
    Except Fault Bool := do
  let r ← operatorLt lhs rhs
  pure (!r)

/-- Slot `i` of the block can be read: it lies in the block and a value was assigned to it. -/
def readable (v : SimpleVector T) (i : Nat) : Bool :=
  match v.items_[i]? with
  | some (some _) => true
  | _ => false

/-- Every index below `size_` holds a constructed value (the data model's "elements at indices
`[0, size)` are valid constructed values").  Every constructor establishes this and every
operation keeps it (see `live_*` below). -/
def Live (v : SimpleVector T) : Prop := ∀ i, i < v.size_ → readable v i = true

instance (v : SimpleVector T) : Decidable (Live v) := by
  unfold Live; infer_instance

/-- `a[i] == b[j]` holds: both elements can be read and `==` on them is true. -/
def ElemEq [BEq T] (a : SimpleVector T) (i : Nat) (b : SimpleVector T) (j : Nat) : Prop :=
  ∃ x y, idx a i = .ok x ∧ idx b j = .ok y ∧ (x == y) = true

/-- `a[i] < b[j]` holds: both elements can be read and `<` on them is true. -/
def ElemLt [LT T] (a : SimpleVector T) (i : Nat) (b : SimpleVector T) (j : Nat) : Prop :=
  ∃ x y, idx a i = .ok x ∧ idx b j = .ok y ∧ x < y

/-- The block owns at least `capacity_` slots.  Every constructor establishes this and every
operation keeps it (see `allocated_*` below). -/
def Allocated (v : SimpleVector T) : Prop := v.capacity_ ≤ v.items_.length

instance (v : SimpleVector T) : Decidable (Allocated v) := by
  unfold Allocated; infer_instance

/-- The vector `{1, 2}` as the initializer-list constructor builds it. -/
def sample12 : SimpleVector Int := ⟨[some 1, some 2], 2, 2⟩

/-- The vector `{1, 9, 2}` as the initializer-list constructor builds it. -/
def sample192 : SimpleVector Int := ⟨[some 1, some 9, some 2], 3, 3⟩

/-- A vector of size 2 in a block of 3 slots: `{1, 2}` after `Reserve(3)`. -/
def sample12r : SimpleVector Int := ⟨[some 1, some 2, none], 2, 3⟩

/-- The vector `{1, 2, 3}` as the initializer-list constructor builds it. -/
def sample123 : SimpleVector Int := ⟨[some 1, some 2, some 3], 3, 3⟩

/-- The vector `{1, 3}` as the initializer-list constructor builds it. -/
def sample13 : SimpleVector Int := ⟨[some 1, some 3], 2, 2⟩

/-- The copy of `{1, 2}` as the copy constructor builds it: size 2, `capacity_` 0. -/
def sample12copy : SimpleVector Int := ⟨[some 1, some 2], 2, 0⟩

end SimpleVector

/-! ## The range loops -/

theorem copyLoop_length {S : Type} (src dst : List S) (first d n : Nat) :
    (copyLoop src dst first d n).length = dst.length := by
  induction n generalizing dst first d with
  | zero => rfl
  | succ n ih =>
    simp only [copyLoop]
    split
    · rw [ih]; simp
    · rfl

theorem copyLoop_getElem? {S : Type} (src dst : List S) (first d n j : Nat)
    (hs : first + n ≤ src.length) (hd : d + n ≤ dst.length) :
    (copyLoop src dst first d n)[j]? =
      if d ≤ j ∧ j < d + n then src[first + (j - d)]? else dst[j]? := by
  induction n generalizing dst first d with
  | zero =>
    simp only [copyLoop, Nat.add_zero, Nat.sub_zero]
    rw [if_neg (by omega)]
  | succ n ih =>
    have hlt : first < src.length := by omega
    simp only [copyLoop, List.getElem?_eq_getElem hlt]
    rw [ih _ _ _ (by omega) (by simp; omega), List.getElem?_set]
    by_cases h1 : d + 1 ≤ j ∧ j < d + 1 + n
    · have e : first + 1 + (j - (d + 1)) = first + (j - d) := by omega
      have h2 : d ≤ j ∧ j < d + (n + 1) := by omega
      rw [if_pos h1, if_pos h2, e]
    · rw [if_neg h1]
      by_cases h3 : d = j
      · subst h3
        have h2 : d ≤ d ∧ d < d + (n + 1) := by omega
        have h4 : d < dst.length := by omega
        rw [if_pos rfl, if_pos h4, if_pos h2]
        simp [List.getElem?_eq_getElem hlt]
      · have h2 : ¬ (d ≤ j ∧ j < d + (n + 1)) := by omega
        rw [if_neg h3, if_neg h2]

theorem moveLoopWithin_length {S : Type} (buf : List S) (first d n : Nat) :
    (moveLoopWithin buf first d n).length = buf.length := by
  induction n generalizing buf first d with
  | zero => rfl
  | succ n ih =>
    simp only [moveLoopWithin]
    split
    · rw [ih]; simp
    · rfl

theorem moveLoopWithin_getElem? {S : Type} (buf : List S) (first d n j : Nat)
    (hs : first + n ≤ buf.length) (hd : d ≤ first) :
    (moveLoopWithin buf first d n)[j]? =
      if d ≤ j ∧ j < d + n then buf[j + (first - d)]? else buf[j]? := by
  induction n generalizing buf first d with
  | zero =>
    simp only [moveLoopWithin, Nat.add_zero, Nat.sub_zero]
    rw [if_neg (by omega)]
  | succ n ih =>
    have hlt : first < buf.length := by omega
    simp only [moveLoopWithin, List.getElem?_eq_getElem hlt]
    rw [ih _ _ _ (by simp; omega) (by omega)]
    by_cases h1 : d + 1 ≤ j ∧ j < d + 1 + n
    · have e : first + 1 - (d + 1) = first - d := by omega
      have h2 : d ≤ j ∧ j < d + (n + 1) := by omega
      have h3 : d ≠ j + (first - d) := by omega
      rw [if_pos h1, if_pos h2, e, List.getElem?_set_ne h3]
    · rw [if_neg h1, List.getElem?_set]
      by_cases h3 : d = j
      · subst h3
        have h2 : d ≤ d ∧ d < d + (n + 1) := by omega
        have h4 : d < buf.length := by omega
        have e : d + (first - d) = first := by omega
        rw [if_pos rfl, if_pos h4, if_pos h2, e]
        simp [List.getElem?_eq_getElem hlt]
      · have h2 : ¬ (d ≤ j ∧ j < d + (n + 1)) := by omega
        rw [if_neg h3, if_neg h2]

theorem moveBackwardLoop_length {S : Type} (src dst : List S) (last d_last n : Nat) :
    (moveBackwardLoop src dst last d_last n).length = dst.length := by
  induction n generalizing dst last d_last with
  | zero => rfl
  | succ n ih =>
    simp only [moveBackwardLoop]
    split
    · rw [ih]; simp
    · rfl

theorem moveBackwardLoop_getElem? {S : Type} (src dst : List S) (last d_last n j : Nat)
    (hn : n ≤ last) (hs : last ≤ src.length) (hm : n ≤ d_last) (hd : d_last ≤ dst.length) :
    (moveBackwardLoop src dst last d_last n)[j]? =
      if d_last - n ≤ j ∧ j < d_last then src[last - (d_last - j)]? else dst[j]? := by
  induction n generalizing dst last d_last with
  | zero =>
    simp only [moveBackwardLoop, Nat.add_zero, Nat.sub_zero]
    rw [if_neg (by omega)]
  | succ n ih =>
    have hlt : last - 1 < src.length := by omega
    simp only [moveBackwardLoop, List.getElem?_eq_getElem hlt]
    rw [ih _ _ _ (by omega) (by omega) (by omega) (by simp; omega), List.getElem?_set]
    by_cases h1 : d_last - 1 - n ≤ j ∧ j < d_last - 1
    · have e : last - 1 - (d_last - 1 - j) = last - (d_last - j) := by omega
      have h2 : d_last - (n + 1) ≤ j ∧ j < d_last := by omega
      rw [if_pos h1, if_pos h2, e]
    · rw [if_neg h1]
      by_cases h3 : d_last - 1 = j
      · have h2 : d_last - (n + 1) ≤ j ∧ j < d_last := by omega
        have h4 : d_last - 1 < dst.length := by omega
        have e : last - (d_last - j) = last - 1 := by omega
        rw [if_pos h3, if_pos h4, if_pos h2, e]
        simp [List.getElem?_eq_getElem hlt]
      · have h2 : ¬ (d_last - (n + 1) ≤ j ∧ j < d_last) := by omega
        rw [if_neg h3, if_neg h2]

theorem moveBackwardLoopWithin_length {S : Type} (buf : List S) (last d_last n : Nat) :
    (moveBackwardLoopWithin buf last d_last n).length = buf.length := by
  induction n generalizing buf last d_last with
  | zero => rfl
  | succ n ih =>
    simp only [moveBackwardLoopWithin]
    split
    · rw [ih]; simp
    · rfl

theorem moveBackwardLoopWithin_getElem? {S : Type} (buf : List S) (last d_last n j : Nat)
    (hn : n ≤ last) (hs : last ≤ d_last) (hd : d_last ≤ buf.length) :
    (moveBackwardLoopWithin buf last d_last n)[j]? =
      if d_last - n ≤ j ∧ j < d_last then buf[last - (d_last - j)]? else buf[j]? := by
  induction n generalizing buf last d_last with
  | zero =>
    simp only [moveBackwardLoopWithin, Nat.add_zero, Nat.sub_zero]
    rw [if_neg (by omega)]
  | succ n ih =>
    have hlt : last - 1 < buf.length := by omega
    simp only [moveBackwardLoopWithin, List.getElem?_eq_getElem hlt]
    rw [ih _ _ _ (by omega) (by omega) (by simp; omega)]
    by_cases h1 : d_last - 1 - n ≤ j ∧ j < d_last - 1
    · have e : last - 1 - (d_last - 1 - j) = last - (d_last - j) := by omega
      have h2 : d_last - (n + 1) ≤ j ∧ j < d_last := by omega
      have h3 : d_last - 1 ≠ last - (d_last - j) := by omega
      rw [if_pos h1, if_pos h2, e, List.getElem?_set_ne h3]
    · rw [if_neg h1, List.getElem?_set]
      by_cases h3 : d_last - 1 = j
      · have h2 : d_last - (n + 1) ≤ j ∧ j < d_last := by omega
        have h4 : d_last - 1 < buf.length := by omega
        have e : last - (d_last - j) = last - 1 := by omega
        rw [if_pos h3, if_pos h4, if_pos h2, e]
        simp [List.getElem?_eq_getElem hlt]
      · have h2 : ¬ (d_last - (n + 1) ≤ j ∧ j < d_last) := by omega
        rw [if_neg h3, if_neg h2]

theorem fillLoop_length {T : Type} (buf : ArrayPtr T) (first : Nat) (value : T) (n : Nat) :
    (fillLoop buf first value n).length = buf.length := by
  induction n generalizing buf first with
  | zero => rfl
  | succ n ih => simp only [fillLoop]; rw [ih]; simp

theorem fillLoop_getElem? {T : Type} (buf : ArrayPtr T) (first : Nat) (value : T) (n j : Nat)
    (hb : first + n ≤ buf.length) :
    (fillLoop buf first value n)[j]? =
      if first ≤ j ∧ j < first + n then some (some value) else buf[j]? := by
  induction n generalizing buf first with
  | zero =>
    simp only [fillLoop, Nat.add_zero, Nat.sub_zero]
    rw [if_neg (by omega)]
  | succ n ih =>
    simp only [fillLoop]
    rw [ih _ _ (by simp; omega), List.getElem?_set]
    by_cases h1 : first + 1 ≤ j ∧ j < first + 1 + n
    · have h2 : first ≤ j ∧ j < first + (n + 1) := by omega
      rw [if_pos h1, if_pos h2]
    · rw [if_neg h1]
      by_cases h3 : first = j
      · have h2 : first ≤ j ∧ j < first + (n + 1) := by omega
        have h4 : first < buf.length := by omega
        rw [if_pos h3, if_pos h4, if_pos h2]
      · have h2 : ¬ (first ≤ j ∧ j < first + (n + 1)) := by omega
        rw [if_neg h3, if_neg h2]

theorem alloc_length {T : Type} (n : Nat) : (ArrayPtr.alloc n : ArrayPtr T).length = n := by
  simp [ArrayPtr.alloc]

theorem alloc_getElem? {T : Type} (n j : Nat) :
    (ArrayPtr.alloc n : ArrayPtr T)[j]? = if j < n then some none else none := by
  simp [ArrayPtr.alloc, List.getElem?_replicate]

/-! ## The guarded range algorithms return when their ranges lie in the blocks -/

theorem std_copy_ok {S : Type} (src dst : List S) (first last d : Nat) (h1 : first ≤ last)
    (h2 : last ≤ src.length) (h3 : d + (last - first) ≤ dst.length) :
    std_copy src first last dst d = .ok (copyLoop src dst first d (last - first)) := by
  simp [std_copy, h1, h2, h3]

theorem std_move_within_ok {S : Type} (buf : List S) (first last d : Nat) (h1 : first ≤ last)
    (h2 : last ≤ buf.length) (h3 : d + (last - first) ≤ buf.length) :
    std_move_within buf first last d = .ok (moveLoopWithin buf first d (last - first)) := by
  simp [std_move_within, h1, h2, h3]

theorem std_move_backward_ok {S : Type} (src dst : List S) (first last d_last : Nat)
    (h1 : first ≤ last) (h2 : last ≤ src.length) (h3 : last - first ≤ d_last)
    (h4 : d_last ≤ dst.length) :
    std_move_backward src first last dst d_last =
      .ok (moveBackwardLoop src dst last d_last (last - first)) := by
  simp [std_move_backward, h1, h2, h3, h4]

theorem std_move_backward_within_ok {S : Type} (buf : List S) (first last d_last : Nat)
    (h1 : first ≤ last) (h2 : last ≤ buf.length) (h3 : last - first ≤ d_last)
    (h4 : d_last ≤ buf.length) :
    std_move_backward_within buf first last d_last =
      .ok (moveBackwardLoopWithin buf last d_last (last - first)) := by
  simp [std_move_backward_within, h1, h2, h3, h4]

theorem std_fill_ok {T : Type} (buf : ArrayPtr T) (first last : Nat) (value : T)
    (h1 : first ≤ last) (h2 : last ≤ buf.length) :
    std_fill buf first last value = .ok (fillLoop buf first value (last - first)) := by
  simp [std_fill, h1, h2]

theorem assignSlot_ok {T : Type} (buf : ArrayPtr T) (index : Nat) (value : T)
    (h : index < buf.length) : assignSlot buf index value = .ok (buf.set index (some value)) := by
  simp [assignSlot, h]

/-- A sequenced computation that returns has a first step that returns. -/
theorem bind_eq_ok {α β : Type} (x : Except Fault α) (f : α → Except Fault β) (b : β)
    (h : (x >>= f) = .ok b) : ∃ a, x = .ok a ∧ f a = .ok b := by
  cases x with
  | error e => cases h
  | ok a => exact ⟨a, rfl, h⟩

theorem std_copy_length {S : Type} (src dst r : List S) (first last d : Nat)
    (h : std_copy src first last dst d = .ok r) : r.length = dst.length := by
  unfold std_copy at h
  split_ifs at h
  cases h
  exact copyLoop_length _ _ _ _ _

theorem std_move_within_length {S : Type} (buf r : List S) (first last d : Nat)
    (h : std_move_within buf first last d = .ok r) : r.length = buf.length := by
  unfold std_move_within at h
  split_ifs at h
  cases h
  exact moveLoopWithin_length _ _ _ _

theorem std_move_backward_length {S : Type} (src dst r : List S) (first last d_last : Nat)
    (h : std_move_backward src first last dst d_last = .ok r) : r.length = dst.length := by
  unfold std_move_backward at h
  split_ifs at h
  cases h
  exact moveBackwardLoop_length _ _ _ _ _

theorem std_move_backward_within_length {S : Type} (buf r : List S) (first last d_last : Nat)
    (h : std_move_backward_within buf first last d_last = .ok r) : r.length = buf.length := by
  unfold std_move_backward_within at h
  split_ifs at h
  cases h
  exact moveBackwardLoopWithin_length _ _ _ _

theorem std_fill_length {T : Type} (buf r : ArrayPtr T) (first last : Nat) (value : T)
    (h : std_fill buf first last value = .ok r) : r.length = buf.length := by
  unfold std_fill at h
  split_ifs at h
  cases h
  exact fillLoop_length _ _ _ _

theorem assignSlot_length {T : Type} (buf r : ArrayPtr T) (index : Nat) (value : T)
    (h : assignSlot buf index value = .ok r) : r.length = buf.length := by
  unfold assignSlot at h
  split_ifs at h
  cases h
  exact List.length_set _ _ _

namespace SimpleVector

variable {T : Type}

/-- Two vectors whose slot `i` holds the same thing give the same `operator[]` result. -/
theorem idx_congr (v w : SimpleVector T) (i j : Nat) (h : w.items_[i]? = v.items_[j]?) :
    idx w i = idx v j := by
  simp only [idx, h]

theorem idx_of_slot (v : SimpleVector T) (i : Nat) (x : T) (h : v.items_[i]? = some (some x)) :
    idx v i = .ok x := by
  simp only [idx, h]

/-! ## Reserve -/

theorem Reserve_noop (v : SimpleVector T) (n : Nat) (h : n ≤ v.capacity_) :
    Reserve v n = .ok v := by
  have : ¬ n > v.capacity_ := by omega
  simp [Reserve, this, pure, Except.pure]

theorem Reserve_grow (v : SimpleVector T) (n : Nat) (h : v.capacity_ < n)
    (hs : v.size_ ≤ v.items_.length) (hn : v.size_ ≤ n) :
    Reserve v n = .ok ⟨copyLoop v.items_ (ArrayPtr.alloc n) 0 0 v.size_, v.size_, n⟩ := by
  have e := std_copy_ok v.items_ (ArrayPtr.alloc n) 0 v.size_ 0 (Nat.zero_le _) hs
    (by simp [alloc_length]; exact hn)
  simp only [Nat.sub_zero] at e
  simp [Reserve, h, e, bind, Except.bind, pure, Except.pure]

/-- The block `Reserve` installs: the live slots of the old block, then fresh slots. -/
theorem grown_getElem? (items : ArrayPtr T) (size n j : Nat) (hs : size ≤ items.length)
    (hn : size ≤ n) :
    (copyLoop items (ArrayPtr.alloc n) 0 0 size)[j]? =
      if j < size then items[j]? else if j < n then some none else none := by
  rw [copyLoop_getElem? _ _ _ _ _ _ (by omega) (by simp [alloc_length]; exact hn)]
  by_cases h : j < size
  · have h2 : 0 ≤ j ∧ j < 0 + size := by omega
    rw [if_pos h2, if_pos h]; simp
  · have h2 : ¬ (0 ≤ j ∧ j < 0 + size) := by omega
    rw [if_neg h2, if_neg h, alloc_getElem?]

theorem grown_length (items : ArrayPtr T) (size n : Nat) :
    (copyLoop items (ArrayPtr.alloc n) 0 0 size).length = n := by
  rw [copyLoop_length, alloc_length]

/-! ## PushBack -/

theorem read_object (x : T) (block : Option (ArrayPtr T)) :
    (Arg.object x).read block = .ok x := by
  cases block <;> rfl

theorem read_released (item : Arg T) (x : T) (h : item.read none = .ok x) :
    item = Arg.object x := by
  cases item with
  | object y =>
    simp only [Arg.read] at h
    cases h
    rfl
  | element i => simp only [Arg.read] at h; cases h

/-- What one `PushBack` of an object outside the block does to the slots of a vector with
`size_ ≤ capacity_ ≤` block length. -/
theorem PushBack_slots (v : SimpleVector T) (item : T)
    (hsc : v.size_ ≤ v.capacity_) (ha : Allocated v) :
    ∃ w, PushBackMove v (Arg.object item) = .ok w ∧ w.size_ = v.size_ + 1 ∧
      w.capacity_ = (if v.size_ < v.capacity_ then v.capacity_ else max 1 (2 * v.capacity_)) ∧
      Allocated w ∧ w.items_[v.size_]? = some (some item) ∧
      ∀ j, j < v.size_ → w.items_[j]? = v.items_[j]? := by
  unfold Allocated at ha
  unfold PushBackMove
  by_cases h : v.size_ < v.capacity_
  · have hl : v.size_ < v.items_.length := by omega
    refine ⟨⟨v.items_.set v.size_ (some item), v.size_ + 1, v.capacity_⟩, ?_, rfl, ?_, ?_, ?_, ?_⟩
    · simp [h, read_object, assignSlot_ok _ _ _ hl, bind, Except.bind, pure, Except.pure]
    · simp [h]
    · simp [Allocated]; exact ha
    · simp [List.getElem?_set, hl]
    · intro j hj
      have : v.size_ ≠ j := by omega
      simp [List.getElem?_set_ne this]
  · have hc : v.capacity_ < max 1 (2 * v.capacity_) := by omega
    have hs1 : v.size_ ≤ v.items_.length := by omega
    have hs2 : v.size_ < max 1 (2 * v.capacity_) := by omega
    have hl : v.size_ < (copyLoop v.items_ (ArrayPtr.alloc (max 1 (2 * v.capacity_))) 0 0
        v.size_).length := by rw [grown_length]; exact hs2
    refine ⟨⟨(copyLoop v.items_ (ArrayPtr.alloc (max 1 (2 * v.capacity_))) 0 0 v.size_).set
      v.size_ (some item), v.size_ + 1, max 1 (2 * v.capacity_)⟩, ?_, rfl, ?_, ?_, ?_, ?_⟩
    · simp only [h, if_false]
      rw [Reserve_grow v _ hc hs1 (by omega)]
      simp only [bind, Except.bind, read_object]
      rw [assignSlot_ok _ _ _ hl]
      rfl
    · simp [h]
    · simp [Allocated, grown_length]
    · simp only [List.getElem?_set, if_true, hl]
    · intro j hj
      have : v.size_ ≠ j := by omega
      simp only [List.getElem?_set_ne this]
      rw [grown_getElem? _ _ _ _ hs1 (by omega), if_pos hj]

/-- When `PushBack` has to grow the block, an argument that is a slot of the block is read
after the block was released. -/
theorem PushBackMove_element_full (v : SimpleVector T) (index : Nat)
    (h : ¬ v.size_ < v.capacity_) : PushBackMove v (Arg.element index) = .error .Undefined := by
  have hc : max 1 (2 * v.capacity_) > v.capacity_ := by omega
  simp only [PushBackMove, h, if_false, hc, if_true]
  cases hr : Reserve v (max 1 (2 * v.capacity_)) with
  | error e =>
    have : e = Fault.Undefined := by
      simp only [Reserve, hc, if_true, std_copy, bind, Except.bind, pure, Except.pure] at hr
      split_ifs at hr
      cases hr
      rfl
    simp only [bind, Except.bind, this]
  | ok v1 => simp only [bind, Except.bind, Arg.read]

end SimpleVector

namespace SimpleVector

variable {T : Type}

/-! ## Insert, Erase, Resize, repeated PushBack: what happens to the slots -/

theorem Insert_slots (v : SimpleVector T) (k : Nat) (x : T) (hsc : v.size_ ≤ v.capacity_)
    (ha : Allocated v) (hk : k ≤ v.size_) :
    ∃ w, Insert v k (Arg.object x) = .ok (w, k) ∧ w.size_ = v.size_ + 1 ∧
      w.capacity_ = (if v.size_ < v.capacity_ then v.capacity_ else max 1 (2 * v.capacity_)) ∧
      Allocated w ∧ (∀ j, j < k → w.items_[j]? = v.items_[j]?) ∧
      w.items_[k]? = some (some x) ∧
      ∀ j, k ≤ j → j < v.size_ → w.items_[j + 1]? = v.items_[j]? := by
  unfold Allocated at ha
  unfold Insert
  simp only [hk, if_true]
  by_cases h : v.size_ < v.capacity_
  · have hl : v.size_ + 1 ≤ v.items_.length := by omega
    have e1 := std_move_backward_within_ok v.items_ k v.size_ (v.size_ + 1) hk (by omega)
      (by omega) hl
    have hl2 : k < (moveBackwardLoopWithin v.items_ v.size_ (v.size_ + 1) (v.size_ - k)).length := by
      rw [moveBackwardLoopWithin_length]; omega
    have hg : ∀ j, (moveBackwardLoopWithin v.items_ v.size_ (v.size_ + 1) (v.size_ - k))[j]? =
        if v.size_ + 1 - (v.size_ - k) ≤ j ∧ j < v.size_ + 1
        then v.items_[v.size_ - (v.size_ + 1 - j)]? else v.items_[j]? :=
      fun j => moveBackwardLoopWithin_getElem? v.items_ v.size_ (v.size_ + 1) (v.size_ - k) j
        (by omega) (by omega) hl
    refine ⟨⟨(moveBackwardLoopWithin v.items_ v.size_ (v.size_ + 1) (v.size_ - k)).set k (some x),
      v.size_ + 1, v.capacity_⟩, ?_, rfl, ?_, ?_, ?_, ?_, ?_⟩
    · simp only [h, if_true, bind, Except.bind, e1, read_object, assignSlot_ok _ _ _ hl2]
      rfl
    · simp [h]
    · simp only [Allocated, List.length_set, moveBackwardLoopWithin_length]; exact ha
    · intro j hj
      have hne : k ≠ j := by omega
      have hc : ¬ (v.size_ + 1 - (v.size_ - k) ≤ j ∧ j < v.size_ + 1) := by omega
      simp only [List.getElem?_set_ne hne]
      rw [hg, if_neg hc]
    · simp only [List.getElem?_set, if_true, hl2]
    · intro j hj1 hj2
      have hne : k ≠ j + 1 := by omega
      have hc : v.size_ + 1 - (v.size_ - k) ≤ j + 1 ∧ j + 1 < v.size_ + 1 := by omega
      have e : v.size_ - (v.size_ + 1 - (j + 1)) = j := by omega
      simp only [List.getElem?_set_ne hne]
      rw [hg, if_pos hc, e]
  · have hnc : v.size_ < max 1 (2 * v.capacity_) := by omega
    have e1 := std_copy_ok v.items_ (ArrayPtr.alloc (max 1 (2 * v.capacity_))) 0 k 0
      (Nat.zero_le _) (by omega) (by rw [alloc_length]; omega)
    simp only [Nat.sub_zero] at e1
    have e2 := std_move_backward_ok v.items_
      (copyLoop v.items_ (ArrayPtr.alloc (max 1 (2 * v.capacity_))) 0 0 k) k v.size_ (v.size_ + 1)
      hk (by omega) (by omega) (by rw [copyLoop_length, alloc_length]; omega)
    have hl2 : k < (moveBackwardLoop v.items_
        (copyLoop v.items_ (ArrayPtr.alloc (max 1 (2 * v.capacity_))) 0 0 k)
        v.size_ (v.size_ + 1) (v.size_ - k)).length := by
      rw [moveBackwardLoop_length, copyLoop_length, alloc_length]; omega
    have hg : ∀ j, (moveBackwardLoop v.items_
        (copyLoop v.items_ (ArrayPtr.alloc (max 1 (2 * v.capacity_))) 0 0 k)
        v.size_ (v.size_ + 1) (v.size_ - k))[j]? =
        if v.size_ + 1 - (v.size_ - k) ≤ j ∧ j < v.size_ + 1
        then v.items_[v.size_ - (v.size_ + 1 - j)]?
        else (copyLoop v.items_ (ArrayPtr.alloc (max 1 (2 * v.capacity_))) 0 0 k)[j]? :=
      fun j => moveBackwardLoop_getElem? v.items_ _ v.size_ (v.size_ + 1) (v.size_ - k) j
        (by omega) (by omega) (by omega) (by rw [copyLoop_length, alloc_length]; omega)
    refine ⟨⟨(moveBackwardLoop v.items_
        (copyLoop v.items_ (ArrayPtr.alloc (max 1 (2 * v.capacity_))) 0 0 k)
        v.size_ (v.size_ + 1) (v.size_ - k)).set k (some x),
      v.size_ + 1, max 1 (2 * v.capacity_)⟩, ?_, rfl, ?_, ?_, ?_, ?_, ?_⟩
    · simp only [h, if_false, bind, Except.bind, e1, e2, read_object, assignSlot_ok _ _ _ hl2]
      rfl
    · simp [h]
    · simp only [Allocated, List.length_set, moveBackwardLoop_length, copyLoop_length,
        alloc_length]
      exact Nat.le_refl _
    · intro j hj
      have hne : k ≠ j := by omega
      have hc : ¬ (v.size_ + 1 - (v.size_ - k) ≤ j ∧ j < v.size_ + 1) := by omega
      simp only [List.getElem?_set_ne hne]
      rw [hg, if_neg hc, grown_getElem? _ _ _ _ (by omega) (by omega), if_pos hj]
    · simp only [List.getElem?_set, if_true, hl2]
    · intro j hj1 hj2
      have hne : k ≠ j + 1 := by omega
      have hc : v.size_ + 1 - (v.size_ - k) ≤ j + 1 ∧ j + 1 < v.size_ + 1 := by omega
      have e : v.size_ - (v.size_ + 1 - (j + 1)) = j := by omega
      simp only [List.getElem?_set_ne hne]
      rw [hg, if_pos hc, e]

theorem Erase_slots (v : SimpleVector T) (k : Nat) (hl : v.size_ ≤ v.items_.length)
    (hk : k < v.size_) :
    ∃ w, Erase v k = .ok (w, k) ∧ w.size_ = v.size_ - 1 ∧ w.capacity_ = v.capacity_ ∧
      w.items_.length = v.items_.length ∧ (∀ j, j < k → w.items_[j]? = v.items_[j]?) ∧
      ∀ j, k ≤ j → j < v.size_ - 1 → w.items_[j]? = v.items_[j + 1]? := by
  have e1 := std_move_within_ok v.items_ (k + 1) v.size_ k (by omega) hl (by omega)
  have hg : ∀ j, (moveLoopWithin v.items_ (k + 1) k (v.size_ - (k + 1)))[j]? =
      if k ≤ j ∧ j < k + (v.size_ - (k + 1)) then v.items_[j + (k + 1 - k)]? else v.items_[j]? :=
    fun j => moveLoopWithin_getElem? v.items_ (k + 1) k (v.size_ - (k + 1)) j (by omega) (by omega)
  have hne : ¬ k = v.size_ := by omega
  refine ⟨⟨moveLoopWithin v.items_ (k + 1) k (v.size_ - (k + 1)), v.size_ - 1, v.capacity_⟩,
    ?_, rfl, rfl, ?_, ?_, ?_⟩
  · simp only [Erase, end_, hne, if_false, bind, Except.bind, e1]
    rfl
  · simp only [moveLoopWithin_length]
  · intro j hj
    have hc : ¬ (k ≤ j ∧ j < k + (v.size_ - (k + 1))) := by omega
    simp only []
    rw [hg, if_neg hc]
  · intro j hj1 hj2
    have hc : k ≤ j ∧ j < k + (v.size_ - (k + 1)) := by omega
    have e : j + (k + 1 - k) = j + 1 := by omega
    simp only []
    rw [hg, if_pos hc, e]

theorem Resize_slots [Inhabited T] (v : SimpleVector T) (n : Nat) (hsc : v.size_ ≤ v.capacity_)
    (ha : Allocated v) :
    ∃ w, Resize v n = .ok w ∧ w.size_ = n ∧
      w.capacity_ = (if n ≤ v.capacity_ then v.capacity_ else max n (2 * v.capacity_)) ∧
      Allocated w ∧ (∀ j, j < v.size_ → j < n → w.items_[j]? = v.items_[j]?) ∧
      ∀ j, v.size_ ≤ j → j < n → w.items_[j]? = some (some default) := by
  unfold Allocated at ha
  unfold Resize
  by_cases h1 : n = v.size_
  · refine ⟨v, ?_, h1.symm, ?_, ha, fun _ _ _ => rfl, ?_⟩
    · simp [h1, pure, Except.pure]
    · have : n ≤ v.capacity_ := by omega
      simp [this]
    · intro j hj1 hj2; omega
  · by_cases h2 : n < v.size_
    · refine ⟨{ v with size_ := n }, ?_, rfl, ?_, ha, fun _ _ _ => rfl, ?_⟩
      · simp [h1, h2, pure, Except.pure]
      · have : n ≤ v.capacity_ := by omega
        simp [this]
      · intro j hj1 hj2; omega
    · simp only [h1, h2, if_false]
      by_cases h3 : n > v.capacity_
      · have hc : v.capacity_ < max n (2 * v.capacity_) := by omega
        have hs1 : v.size_ ≤ v.items_.length := by omega
        have hl : n ≤ (copyLoop v.items_ (ArrayPtr.alloc (max n (2 * v.capacity_))) 0 0
            v.size_).length := by rw [grown_length]; omega
        have e2 := std_fill_ok (copyLoop v.items_ (ArrayPtr.alloc (max n (2 * v.capacity_))) 0 0
          v.size_) v.size_ n default (by omega) hl
        have hg : ∀ j, (fillLoop (copyLoop v.items_ (ArrayPtr.alloc (max n (2 * v.capacity_))) 0 0
            v.size_) v.size_ default (n - v.size_))[j]? =
            if v.size_ ≤ j ∧ j < v.size_ + (n - v.size_) then some (some default)
            else (copyLoop v.items_ (ArrayPtr.alloc (max n (2 * v.capacity_))) 0 0 v.size_)[j]? :=
          fun j => fillLoop_getElem? _ _ _ _ j (by omega)
        refine ⟨⟨fillLoop (copyLoop v.items_ (ArrayPtr.alloc (max n (2 * v.capacity_))) 0 0
          v.size_) v.size_ default (n - v.size_), n, max n (2 * v.capacity_)⟩,
          ?_, rfl, ?_, ?_, ?_, ?_⟩
        · simp only [h3, if_true]
          rw [Reserve_grow v _ hc hs1 (by omega)]
          simp only [bind, Except.bind, e2]
          rfl
        · have : ¬ n ≤ v.capacity_ := by omega
          simp [this]
        · simp only [Allocated, fillLoop_length, grown_length]
          exact Nat.le_refl _
        · intro j hj1 hj2
          have hc2 : ¬ (v.size_ ≤ j ∧ j < v.size_ + (n - v.size_)) := by omega
          simp only []
          rw [hg, if_neg hc2, grown_getElem? _ _ _ _ hs1 (by omega), if_pos hj1]
        · intro j hj1 hj2
          have hc2 : v.size_ ≤ j ∧ j < v.size_ + (n - v.size_) := by omega
          simp only []
          rw [hg, if_pos hc2]
      · have e2 := std_fill_ok v.items_ v.size_ n default (by omega) (by omega)
        have hg : ∀ j, (fillLoop v.items_ v.size_ default (n - v.size_))[j]? =
            if v.size_ ≤ j ∧ j < v.size_ + (n - v.size_) then some (some default)
            else v.items_[j]? :=
          fun j => fillLoop_getElem? _ _ _ _ j (by omega)
        refine ⟨⟨fillLoop v.items_ v.size_ default (n - v.size_), n, v.capacity_⟩,
          ?_, rfl, ?_, ?_, ?_, ?_⟩
        · simp only [h3, if_false, bind, Except.bind, pure, Except.pure, e2]
        · have : n ≤ v.capacity_ := by omega
          simp [this]
        · simp only [Allocated, fillLoop_length]
          exact ha
        · intro j hj1 hj2
          have hc2 : ¬ (v.size_ ≤ j ∧ j < v.size_ + (n - v.size_)) := by omega
          simp only []
          rw [hg, if_neg hc2]
        · intro j hj1 hj2
          have hc2 : v.size_ ≤ j ∧ j < v.size_ + (n - v.size_) := by omega
          simp only []
          rw [hg, if_pos hc2]

theorem pushBackAll_slots (xs : List T) (v : SimpleVector T)
    (hsc : v.size_ ≤ v.capacity_) (ha : Allocated v) :
    ∃ w, pushBackAll v (xs.map Arg.object) = .ok w ∧ w.size_ = v.size_ + xs.length ∧
      w.size_ ≤ w.capacity_ ∧ Allocated w ∧ (∀ j, j < v.size_ → w.items_[j]? = v.items_[j]?) ∧
      ∀ i (h : i < xs.length), w.items_[v.size_ + i]? = some (some xs[i]) := by
  induction xs generalizing v with
  | nil =>
    refine ⟨v, rfl, rfl, hsc, ha, fun _ _ => rfl, ?_⟩
    intro i h
    simp at h
  | cons c xs ih =>
    obtain ⟨v1, e1, hs1, hc1, ha1, hx1, hold1⟩ := PushBack_slots v c hsc ha
    have hsc1 : v1.size_ ≤ v1.capacity_ := by
      rw [hs1, hc1]
      by_cases h : v.size_ < v.capacity_
      · rw [if_pos h]; omega
      · rw [if_neg h]; omega
    obtain ⟨w, e2, hs2, hc2, ha2, hold2, hnew2⟩ := ih v1 hsc1 ha1
    refine ⟨w, ?_, ?_, hc2, ha2, ?_, ?_⟩
    · simp only [List.map_cons, pushBackAll, e1, bind, Except.bind, e2]
    · rw [hs2, hs1, List.length_cons]; omega
    · intro j hj
      rw [hold2 j (by omega), hold1 j hj]
    · intro i h
      cases i with
      | zero =>
        rw [Nat.add_zero, hold2 v.size_ (by omega), hx1]
        rfl
      | succ i =>
        have h' : i < xs.length := by simpa using h
        have := hnew2 i h'
        rw [hs1] at this
        have e : v.size_ + (i + 1) = v.size_ + 1 + i := by omega
        rw [e, this]
        rfl

end SimpleVector

namespace SimpleVector

variable {T : Type}

/-! ## Constructors -/

theorem ofSizeValue_ok (size : Nat) (value : T) :
    ofSizeValue size value = .ok ⟨fillLoop (ArrayPtr.alloc size) 0 value size, size, size⟩ := by
  have e := std_fill_ok (ArrayPtr.alloc size) 0 size value (Nat.zero_le _)
    (by rw [alloc_length])
  simp only [Nat.sub_zero] at e
  simp only [ofSizeValue, e, bind, Except.bind]
  rfl

theorem ofInit_ok (init : List T) :
    ofInit init = .ok ⟨copyLoop (init.map some) (ArrayPtr.alloc init.length) 0 0 init.length,
      init.length, init.length⟩ := by
  have e := std_copy_ok (init.map some) (ArrayPtr.alloc init.length) 0 init.length 0
    (Nat.zero_le _) (by simp) (by rw [alloc_length]; omega)
  simp only [Nat.sub_zero] at e
  simp only [ofInit, e, bind, Except.bind]
  rfl

theorem copy_ok (v : SimpleVector T) (hsc : v.size_ ≤ v.capacity_) (ha : Allocated v) :
    copy v = .ok ⟨copyLoop v.items_ (ArrayPtr.alloc v.capacity_) 0 0 v.size_, v.size_, 0⟩ := by
  unfold Allocated at ha
  have e := std_copy_ok v.items_ (ArrayPtr.alloc v.capacity_) 0 v.size_ 0
    (Nat.zero_le _) (by omega) (by rw [alloc_length]; omega)
  simp only [Nat.sub_zero] at e
  simp only [copy, e, bind, Except.bind]
  rfl

/-- Whatever vector the copy constructor returns reports capacity `0`. -/
theorem copy_capacity (v w : SimpleVector T) (h : copy v = .ok w) : w.capacity_ = 0 := by
  unfold copy at h
  cases hc : std_copy v.items_ 0 v.size_ (ArrayPtr.alloc v.capacity_) 0 with
  | error e => rw [hc] at h; cases h
  | ok items =>
    rw [hc] at h
    simp only [bind, Except.bind, pure, Except.pure] at h
    cases h
    rfl

/-- The sample vectors are vectors the class builds. -/
theorem samples_built :
    ofInit [1, 2] = .ok sample12 ∧ ofInit [1, 9, 2] = .ok sample192 ∧
    Reserve sample12 3 = .ok sample12r ∧ ofInit [1, 2, 3] = .ok sample123 ∧
    ofInit [1, 3] = .ok sample13 ∧ copy sample12 = .ok sample12copy := by
  refine ⟨by decide, by decide, by decide, by decide, by decide, by decide⟩

/-! ## The claims -/

/-- C1 (fails on the code).  The claim: `size <= capacity` holds for the result of every
constructor and is kept by every operation.  The copy constructor leaves `capacity_` at its
default `0`: copying the vector `{1, 2}`, on which `size <= capacity` holds, gives a vector of size
2 and capacity 0, and copy-assigning `{1, 2}` to a default-constructed vector gives the same
vector. -/
theorem copy_breaks_size_le_capacity :
    ofInit [1, 2] = .ok sample12 ∧ sample12.GetSize ≤ sample12.GetCapacity ∧
    ∃ w, copy sample12 = .ok w ∧ w.GetSize = 2 ∧ w.GetCapacity = 0 ∧
      ¬ (w.GetSize ≤ w.GetCapacity) ∧ assign false mkDefault sample12 = .ok w := by
  refine ⟨by decide, by decide, ⟨[some 1, some 2], 2, 0⟩, by decide, by decide, by decide,
    by decide, by decide⟩

/-- C2 (fails on the code).  The claim: the copy `w` of `v` has the size, the capacity and the
elements of `v`.  For `v = {1, 2}` the copy has the size and the elements of `v`, and
`GetCapacity(w)` is 0 while `GetCapacity(v)` is 2. -/
theorem copy_loses_capacity :
    ∃ w, copy sample12 = .ok w ∧ w.GetSize = sample12.GetSize ∧
      idx w 0 = idx sample12 0 ∧ idx w 1 = idx sample12 1 ∧
      sample12.GetCapacity = 2 ∧ w.GetCapacity = 0 ∧ w.GetCapacity ≠ sample12.GetCapacity := by
  refine ⟨⟨[some 1, some 2], 2, 0⟩, by decide, by decide, by decide, by decide, by decide,
    by decide, by decide⟩

/-- C3 as stated fails on the code: the values pushed may be passed as references to
elements of the vector.  After `PushBack(5)` on a default-constructed vector (size 1,
capacity 1), `PushBack(std::move(v[0]))` pushes the value 5 again: `Reserve(2)` moves the
element to a new block and releases the old one, and the argument is read from the released
block. -/
theorem pushBack_repeated_fails_on_own_element :
    ∃ u : SimpleVector Int, PushBackMove mkDefault (Arg.object 5) = .ok u ∧ u.GetSize = 1 ∧
      u.GetCapacity = 1 ∧ idx u 0 = .ok 5 ∧
      PushBackMove u (Arg.element 0) = .error .Undefined ∧
      pushBackAll (mkDefault : SimpleVector Int) [Arg.object 5, Arg.element 0]
        = .error .Undefined := by
  refine ⟨⟨[some 5], 1, 1⟩, by decide, by decide, by decide, by decide, by decide, by decide⟩

/-- C3, amended.  `PushBack(x_0)`, ..., `PushBack(x_{N-1})` through the `Type&&` overload on a
default-constructed vector, the `x_i` being objects that are not elements of the vector, returns
a vector with `GetSize() == N` and `v[i] == x_i` for every `i < N`; and after each of the calls
(after the first `k` of them, for every `k <= N`) the size is `k` and
`GetCapacity() >= GetSize()`. -/
theorem pushBack_repeated (xs : List T) :
    (∃ w, pushBackAll mkDefault (xs.map Arg.object) = .ok w ∧ w.GetSize = xs.length ∧
      ∀ i (h : i < xs.length), idx w i = .ok xs[i]) ∧
    ∀ k, k ≤ xs.length →
      ∃ u, pushBackAll mkDefault ((xs.take k).map Arg.object) = .ok u ∧ u.GetSize = k ∧
        u.GetCapacity ≥ u.GetSize := by
  have h0 : (mkDefault : SimpleVector T).size_ ≤ (mkDefault : SimpleVector T).capacity_ :=
    Nat.le_refl 0
  have a0 : Allocated (mkDefault : SimpleVector T) := Nat.zero_le _
  constructor
  · obtain ⟨w, e, hs, _, _, _, hnew⟩ := pushBackAll_slots xs mkDefault h0 a0
    refine ⟨w, e, ?_, ?_⟩
    · simp only [GetSize, hs, mkDefault, Nat.zero_add]
    · intro i h
      have := hnew i h
      simp only [mkDefault, Nat.zero_add] at this
      exact idx_of_slot w i _ this
  · intro k hk
    obtain ⟨u, e, hs, hc, _, _, _⟩ := pushBackAll_slots (xs.take k) mkDefault h0 a0
    refine ⟨u, e, ?_, hc⟩
    simp only [GetSize, hs, mkDefault, Nat.zero_add, List.length_take]
    omega

/-- C4 as stated fails on the code: the value inserted may be passed as a reference to an
element of the vector.  On `{1, 2}` held in a block of 3 slots, `Insert(begin(), v[1])` inserts
the value 2: the elements are shifted first, which puts the old `v[0]` into slot 1, and the
argument is read afterwards; the vector is `[1, 1, 2]`, with 1 and not 2 at index 0. -/
theorem insert_own_element_stores_neighbour :
    Reserve sample12 3 = .ok sample12r ∧ sample12r.GetSize ≤ sample12r.GetCapacity ∧
    idx sample12r 1 = .ok 2 ∧
    ∃ w, Insert sample12r (sample12r.begin_ + 0) (Arg.element 1) = .ok (w, w.begin_ + 0) ∧
      w.GetSize = 3 ∧ idx w 0 = .ok 1 ∧ idx w 1 = .ok 1 ∧ idx w 2 = .ok 2 ∧
      idx w 0 ≠ idx sample12r 1 := by
  refine ⟨by decide, by decide, by decide, ⟨[some 1, some 1, some 2], 3, 3⟩, by decide,
    by decide, by decide, by decide, by decide, by decide⟩

/-- C4, amended.  On a vector with `size <= capacity` (whose block holds its `capacity` slots),
for `0 <= k <= size` and `x` an object that is not an element of the vector,
`Insert(begin()+k, x)` returns; the size grows by one; the elements below `k` are unchanged, `x`
is at index `k`, every old element at `i` in `[k, size)` is at `i + 1`; the returned cursor is
`begin()+k` of the resulting vector; the capacity is unchanged when `size < capacity` and
`max(1, 2*capacity)` when `size == capacity`.  From an empty vector, `PushBack(1)`,
`PushBack(2)`, `Insert(begin()+1, 9)` gives `[1, 9, 2]` with size 3. -/
theorem insert_shifts_right (v : SimpleVector T) (k : Nat) (x : T)
    (hsc : v.GetSize ≤ v.GetCapacity) (ha : Allocated v) (hk : k ≤ v.GetSize) :
    (∃ w, Insert v (v.begin_ + k) (Arg.object x) = .ok (w, w.begin_ + k) ∧
      w.GetSize = v.GetSize + 1 ∧
      (∀ i, i < k → idx w i = idx v i) ∧ idx w k = .ok x ∧
      (∀ i, k ≤ i → i < v.GetSize → idx w (i + 1) = idx v i) ∧
      (v.GetSize < v.GetCapacity → w.GetCapacity = v.GetCapacity) ∧
      (v.GetSize = v.GetCapacity → w.GetCapacity = max 1 (2 * v.GetCapacity))) ∧
    ∃ u w : SimpleVector Int, pushBackAll mkDefault [Arg.object 1, Arg.object 2] = .ok u ∧
      Insert u (u.begin_ + 1) (Arg.object 9) = .ok (w, w.begin_ + 1) ∧ w.GetSize = 3 ∧
      idx w 0 = .ok 1 ∧ idx w 1 = .ok 9 ∧ idx w 2 = .ok 2 := by
  simp only [GetSize, GetCapacity] at hsc hk
  constructor
  · obtain ⟨w, e, hs, hc, _, hlow, hx, hhigh⟩ := Insert_slots v k x hsc ha hk
    refine ⟨w, ?_, hs, ?_, idx_of_slot w k x hx, ?_, ?_, ?_⟩
    · simp only [begin_, Nat.zero_add]; exact e
    · intro i hi; exact idx_congr v w i i (hlow i hi)
    · intro i h1 h2; exact idx_congr v w (i + 1) i (hhigh i h1 h2)
    · intro h; simp only [GetSize, GetCapacity] at h ⊢; rw [hc, if_pos h]
    · intro h
      simp only [GetSize, GetCapacity] at h ⊢
      have : ¬ v.size_ < v.capacity_ := by omega
      rw [hc, if_neg this]
  · exact ⟨⟨[some 1, some 2], 2, 2⟩, ⟨[some 1, some 9, some 2, none], 3, 4⟩, by decide,
      by decide, by decide, by decide, by decide, by decide⟩

/-- Witness for C4: an in-place insertion in the middle of `{1, 2}` held in a block of 3 slots. -/
theorem insert_shifts_right_witness :
    sample12r.GetSize ≤ sample12r.GetCapacity ∧ Allocated sample12r ∧ 1 ≤ sample12r.GetSize ∧
    ((∃ w, Insert sample12r (sample12r.begin_ + 1) (Arg.object 9) = .ok (w, w.begin_ + 1) ∧
      w.GetSize = sample12r.GetSize + 1 ∧
      (∀ i, i < 1 → idx w i = idx sample12r i) ∧ idx w 1 = .ok 9 ∧
      (∀ i, 1 ≤ i → i < sample12r.GetSize → idx w (i + 1) = idx sample12r i) ∧
      (sample12r.GetSize < sample12r.GetCapacity → w.GetCapacity = sample12r.GetCapacity) ∧
      (sample12r.GetSize = sample12r.GetCapacity →
        w.GetCapacity = max 1 (2 * sample12r.GetCapacity))) ∧
    ∃ u w : SimpleVector Int, pushBackAll mkDefault [Arg.object 1, Arg.object 2] = .ok u ∧
      Insert u (u.begin_ + 1) (Arg.object 9) = .ok (w, w.begin_ + 1) ∧ w.GetSize = 3 ∧
      idx w 0 = .ok 1 ∧ idx w 1 = .ok 9 ∧ idx w 2 = .ok 2) :=
  ⟨by decide, by decide, by decide,
    insert_shifts_right sample12r 1 9 (by decide) (by decide) (by decide)⟩

/-- C5.  On a vector of size `n > 0` with `size <= capacity` (whose block holds its `capacity`
slots), for `k < n`, `Erase(begin()+k)` returns; the size is `n - 1`, the capacity is unchanged,
the elements below `k` are unchanged and the new element at `i`, for `k <= i < n - 1`, is the old
one at `i + 1`; the returned cursor is `begin()+k`, which is `end()` of the resulting vector when
`k == n - 1`.  `Erase(begin())` on `[1, 9, 2]` gives `[9, 2]` with size 2. -/
theorem erase_shifts_left (v : SimpleVector T) (k : Nat)
    (hsc : v.GetSize ≤ v.GetCapacity) (ha : Allocated v) (hk : k < v.GetSize) :
    (∃ w, Erase v (v.begin_ + k) = .ok (w, w.begin_ + k) ∧ w.GetSize = v.GetSize - 1 ∧
      w.GetCapacity = v.GetCapacity ∧ (∀ i, i < k → idx w i = idx v i) ∧
      (∀ i, k ≤ i → i < v.GetSize - 1 → idx w i = idx v (i + 1)) ∧
      (k = v.GetSize - 1 → w.begin_ + k = w.end_)) ∧
    (ofInit [1, 9, 2] = .ok sample192 ∧
      ∃ w : SimpleVector Int, Erase sample192 sample192.begin_ = .ok (w, w.begin_) ∧
        w.GetSize = 2 ∧ idx w 0 = .ok 9 ∧ idx w 1 = .ok 2) := by
  simp only [GetSize, GetCapacity] at hsc hk
  unfold Allocated at ha
  constructor
  · obtain ⟨w, e, hs, hc, _, hlow, hhigh⟩ := Erase_slots v k (by omega) hk
    refine ⟨w, ?_, hs, hc, ?_, ?_, ?_⟩
    · simp only [begin_, Nat.zero_add]; exact e
    · intro i hi; exact idx_congr v w i i (hlow i hi)
    · intro i h1 h2; exact idx_congr v w i (i + 1) (hhigh i h1 h2)
    · intro h
      simp only [GetSize] at h
      simp only [begin_, end_, Nat.zero_add, hs, h]
  · exact ⟨by decide, ⟨[some 9, some 2, some 2], 2, 3⟩, by decide, by decide, by decide,
      by decide⟩

/-- Witness for C5: erasing the middle element of `{1, 9, 2}`. -/
theorem erase_shifts_left_witness :
    sample192.GetSize ≤ sample192.GetCapacity ∧ Allocated sample192 ∧ 1 < sample192.GetSize ∧
    ((∃ w, Erase sample192 (sample192.begin_ + 1) = .ok (w, w.begin_ + 1) ∧
      w.GetSize = sample192.GetSize - 1 ∧
      w.GetCapacity = sample192.GetCapacity ∧ (∀ i, i < 1 → idx w i = idx sample192 i) ∧
      (∀ i, 1 ≤ i → i < sample192.GetSize - 1 → idx w i = idx sample192 (i + 1)) ∧
      (1 = sample192.GetSize - 1 → w.begin_ + 1 = w.end_)) ∧
    (ofInit [1, 9, 2] = .ok sample192 ∧
      ∃ w : SimpleVector Int, Erase sample192 sample192.begin_ = .ok (w, w.begin_) ∧
        w.GetSize = 2 ∧ idx w 0 = .ok 9 ∧ idx w 1 = .ok 2)) :=
  ⟨by decide, by decide, by decide,
    erase_shifts_left sample192 1 (by decide) (by decide) (by decide)⟩

end SimpleVector

namespace SimpleVector

variable {T : Type}

/-- C6.  `At(i)`, const or not, fails with `OutOfRange` exactly when `i >= GetSize()`; so
`At(GetSize())` fails, whatever the size; when `i < GetSize()` it returns what `v[i]` returns;
and the vector after the call is the vector before it. -/
theorem at_checks_index (v : SimpleVector T) (i : Nat) :
    ((At v i).1 = .error .OutOfRange ↔ i ≥ v.GetSize) ∧
    (AtConst v i = .error .OutOfRange ↔ i ≥ v.GetSize) ∧
    (At v v.GetSize).1 = .error .OutOfRange ∧ AtConst v v.GetSize = .error .OutOfRange ∧
    (i < v.GetSize → (At v i).1 = idx v i ∧ AtConst v i = idx v i) ∧
    (At v i).2 = v := by
  have hidx : idx v i ≠ .error .OutOfRange := by
    unfold idx
    split
    · intro h; cases h
    · intro h; cases h
  have hiff : (if i ≥ v.size_ then Except.error Fault.OutOfRange else idx v i)
      = .error .OutOfRange ↔ i ≥ v.size_ := by
    by_cases h : i ≥ v.size_
    · simp only [h, if_true]
    · simp only [h, if_false]
      exact ⟨fun h' => hidx h', fun h' => h'.elim⟩
  refine ⟨hiff, hiff, ?_, ?_, ?_, rfl⟩
  · simp only [At, GetSize, ge_iff_le, Nat.le_refl, if_true]
  · simp only [AtConst, GetSize, ge_iff_le, Nat.le_refl, if_true]
  · intro h
    simp only [GetSize] at h
    have : ¬ i ≥ v.size_ := by omega
    simp only [At, AtConst, this, if_false, and_self]

/-- Witness for C6: `At(1)` on `{1, 2}`. -/
theorem at_checks_index_witness :
    ((At sample12 1).1 = .error .OutOfRange ↔ 1 ≥ sample12.GetSize) ∧
    (AtConst sample12 1 = .error .OutOfRange ↔ 1 ≥ sample12.GetSize) ∧
    (At sample12 sample12.GetSize).1 = .error .OutOfRange ∧
    AtConst sample12 sample12.GetSize = .error .OutOfRange ∧
    (1 < sample12.GetSize → (At sample12 1).1 = idx sample12 1 ∧
      AtConst sample12 1 = idx sample12 1) ∧
    (At sample12 1).2 = sample12 :=
  at_checks_index sample12 1

/-- C7.  On a vector with `size <= capacity` (whose block holds its `capacity` slots),
`Resize(newSize)` returns; the size is `newSize`; the elements below `min(old size, newSize)`
are unchanged; every element at an index in `[old size, newSize)` is `Type{}`; the capacity is
unchanged when `newSize <= capacity` and `max(newSize, 2*capacity)` when `newSize > capacity`.
After `Resize(n)`, then `Resize(m)` with `m < n` and `Resize(n)` again leave the elements below
`m` as `Resize(n)` left them (the original ones below the original size) and make the elements
in `[m, n)` equal to `Type{}`. -/
theorem resize_contents [Inhabited T] (v : SimpleVector T) (n : Nat)
    (hsc : v.GetSize ≤ v.GetCapacity) (ha : Allocated v) :
    ∃ w, Resize v n = .ok w ∧ w.GetSize = n ∧
      (∀ i, i < min v.GetSize n → idx w i = idx v i) ∧
      (∀ i, v.GetSize ≤ i → i < n → idx w i = .ok default) ∧
      (n ≤ v.GetCapacity → w.GetCapacity = v.GetCapacity) ∧
      (n > v.GetCapacity → w.GetCapacity = max n (2 * v.GetCapacity)) ∧
      ∀ m, m < n → ∃ b c, Resize w m = .ok b ∧ Resize b n = .ok c ∧ c.GetSize = n ∧
        (∀ i, i < m → idx c i = idx w i) ∧
        (∀ i, i < min v.GetSize m → idx c i = idx v i) ∧
        (∀ i, m ≤ i → i < n → idx c i = .ok default) := by
  simp only [GetSize, GetCapacity] at hsc ⊢
  obtain ⟨w, e, hs, hc, haw, hlow, hnew⟩ := Resize_slots v n hsc ha
  have hscw : w.size_ ≤ w.capacity_ := by
    rw [hs, hc]
    by_cases h : n ≤ v.capacity_
    · rw [if_pos h]; exact h
    · rw [if_neg h]; omega
  refine ⟨w, e, hs, ?_, ?_, ?_, ?_, ?_⟩
  · intro i hi
    exact idx_congr v w i i (hlow i (by omega) (by omega))
  · intro i h1 h2
    exact idx_of_slot w i default (hnew i h1 h2)
  · intro h; rw [hc, if_pos h]
  · intro h
    have : ¬ n ≤ v.capacity_ := by omega
    rw [hc, if_neg this]
  · intro m hm
    obtain ⟨b, eb, hsb, hcb, hab, hlowb, _⟩ := Resize_slots w m hscw haw
    have hscb : b.size_ ≤ b.capacity_ := by
      have h : m ≤ w.capacity_ := by omega
      rw [hsb, hcb, if_pos h]; exact h
    obtain ⟨c, ec, hsc', _, _, hlowc, hnewc⟩ := Resize_slots b n hscb hab
    refine ⟨b, c, eb, ec, hsc', ?_, ?_, ?_⟩
    · intro i hi
      apply idx_congr
      rw [hlowc i (by omega) (by omega), hlowb i (by omega) hi]
    · intro i hi
      apply idx_congr
      rw [hlowc i (by omega) (by omega), hlowb i (by omega) (by omega),
        hlow i (by omega) (by omega)]
    · intro i h1 h2
      exact idx_of_slot c i default (hnewc i (by omega) h2)

/-- Witness for C7: `Resize(4)` on `{1, 2}`, whose capacity is 2. -/
theorem resize_contents_witness :
    sample12.GetSize ≤ sample12.GetCapacity ∧ Allocated sample12 ∧
    ∃ w, Resize sample12 4 = .ok w ∧ w.GetSize = 4 ∧
      (∀ i, i < min sample12.GetSize 4 → idx w i = idx sample12 i) ∧
      (∀ i, sample12.GetSize ≤ i → i < 4 → idx w i = .ok default) ∧
      (4 ≤ sample12.GetCapacity → w.GetCapacity = sample12.GetCapacity) ∧
      (4 > sample12.GetCapacity → w.GetCapacity = max 4 (2 * sample12.GetCapacity)) ∧
      ∀ m, m < 4 → ∃ b c, Resize w m = .ok b ∧ Resize b 4 = .ok c ∧ c.GetSize = 4 ∧
        (∀ i, i < m → idx c i = idx w i) ∧
        (∀ i, i < min sample12.GetSize m → idx c i = idx sample12 i) ∧
        (∀ i, m ≤ i → i < 4 → idx c i = .ok default) :=
  ⟨by decide, by decide, resize_contents sample12 4 (by decide) (by decide)⟩

/-- C8.  On a vector with `size <= capacity` (whose block holds its `capacity` slots),
`Reserve(newCapacity)` returns and leaves the size and every element below the size unchanged;
the capacity is exactly `newCapacity` when `newCapacity > capacity`; the whole vector is
unchanged when `newCapacity <= capacity`; so the capacity never decreases. -/
theorem reserve_keeps_contents (v : SimpleVector T) (newCapacity : Nat)
    (hsc : v.GetSize ≤ v.GetCapacity) (ha : Allocated v) :
    ∃ w, Reserve v newCapacity = .ok w ∧ w.GetSize = v.GetSize ∧
      (∀ i, i < v.GetSize → idx w i = idx v i) ∧
      (newCapacity > v.GetCapacity → w.GetCapacity = newCapacity) ∧
      (newCapacity ≤ v.GetCapacity → w = v) ∧
      v.GetCapacity ≤ w.GetCapacity := by
  simp only [GetSize, GetCapacity] at hsc ⊢
  unfold Allocated at ha
  by_cases h : newCapacity ≤ v.capacity_
  · refine ⟨v, Reserve_noop v _ h, rfl, fun _ _ => rfl, ?_, fun _ => rfl, Nat.le_refl _⟩
    intro h'; omega
  · refine ⟨_, Reserve_grow v newCapacity (by omega) (by omega) (by omega), rfl, ?_,
      fun _ => rfl, ?_, ?_⟩
    · intro i hi
      apply idx_congr
      simp only []
      rw [grown_getElem? _ _ _ _ (by omega) (by omega), if_pos hi]
    · intro h'; omega
    · simp only []; omega

/-- Witness for C8: `Reserve(5)` on `{1, 2}`, whose capacity is 2. -/
theorem reserve_keeps_contents_witness :
    sample12.GetSize ≤ sample12.GetCapacity ∧ Allocated sample12 ∧
    ∃ w, Reserve sample12 5 = .ok w ∧ w.GetSize = sample12.GetSize ∧
      (∀ i, i < sample12.GetSize → idx w i = idx sample12 i) ∧
      (5 > sample12.GetCapacity → w.GetCapacity = 5) ∧
      (5 ≤ sample12.GetCapacity → w = sample12) ∧
      sample12.GetCapacity ≤ w.GetCapacity :=
  ⟨by decide, by decide, reserve_keeps_contents sample12 5 (by decide) (by decide)⟩

/-- C9 as stated fails on the code: the value pushed may be passed as a reference to an
element of the vector.  On the full vector `{1, 2}`, `PushBack(std::move(v[0]))` pushes the
value 1: `Reserve(4)` moves the elements to a new block and releases the old one, and the
argument is read from the released block. -/
theorem pushBack_once_fails_on_own_element :
    sample12.GetSize ≤ sample12.GetCapacity ∧ sample12.GetSize = sample12.GetCapacity ∧
    idx sample12 0 = .ok 1 ∧ PushBackMove sample12 (Arg.element 0) = .error .Undefined := by
  refine ⟨by decide, by decide, by decide, by decide⟩

/-- C9, amended.  On a vector with `size <= capacity` (whose block holds its `capacity` slots),
one `PushBack(x)` through the `Type&&` overload, `x` being an object that is not an element of
the vector, returns; the size grows by exactly one; `x` is at the old index `size`; the elements
below the old size are unchanged; the capacity is unchanged when `size < capacity` and
`max(1, 2*capacity)` when `size == capacity`. -/
theorem pushBack_once (v : SimpleVector T) (x : T)
    (hsc : v.GetSize ≤ v.GetCapacity) (ha : Allocated v) :
    ∃ w, PushBackMove v (Arg.object x) = .ok w ∧ w.GetSize = v.GetSize + 1 ∧
      idx w v.GetSize = .ok x ∧ (∀ i, i < v.GetSize → idx w i = idx v i) ∧
      (v.GetSize < v.GetCapacity → w.GetCapacity = v.GetCapacity) ∧
      (v.GetSize = v.GetCapacity → w.GetCapacity = max 1 (2 * v.GetCapacity)) := by
  simp only [GetSize, GetCapacity] at hsc ⊢
  obtain ⟨w, e, hs, hc, _, hx, hold⟩ := PushBack_slots v x hsc ha
  refine ⟨w, e, hs, idx_of_slot w _ x hx, ?_, ?_, ?_⟩
  · intro i hi; exact idx_congr v w i i (hold i hi)
  · intro h; rw [hc, if_pos h]
  · intro h
    have : ¬ v.size_ < v.capacity_ := by omega
    rw [hc, if_neg this]

/-- Witness for C9: `PushBack(7)` on the full vector `{1, 2}`. -/
theorem pushBack_once_witness :
    sample12.GetSize ≤ sample12.GetCapacity ∧ Allocated sample12 ∧
    ∃ w, PushBackMove sample12 (Arg.object 7) = .ok w ∧ w.GetSize = sample12.GetSize + 1 ∧
      idx w sample12.GetSize = .ok 7 ∧ (∀ i, i < sample12.GetSize → idx w i = idx sample12 i) ∧
      (sample12.GetSize < sample12.GetCapacity → w.GetCapacity = sample12.GetCapacity) ∧
      (sample12.GetSize = sample12.GetCapacity →
        w.GetCapacity = max 1 (2 * sample12.GetCapacity)) :=
  ⟨by decide, by decide, pushBack_once sample12 7 (by decide) (by decide)⟩

/-- C10.  Move-constructing `w` from `v` gives `w` the size, the capacity, the block and so the
elements that `v` had, and leaves `v` with `GetSize() == 0` and `GetCapacity() == 0`. -/
theorem move_transfers (v : SimpleVector T) :
    (move v).1.GetSize = v.GetSize ∧ (move v).1.GetCapacity = v.GetCapacity ∧
    (move v).1.items_ = v.items_ ∧ (∀ i, idx (move v).1 i = idx v i) ∧
    (move v).2.GetSize = 0 ∧ (move v).2.GetCapacity = 0 :=
  ⟨rfl, rfl, rfl, fun _ => rfl, rfl, rfl⟩

end SimpleVector

namespace SimpleVector

variable {T : Type}

/-! ## The block holds `capacity_` slots in every vector the class can produce

No hypothesis on `size_` is needed: the copy constructor's result, whose `capacity_` is `0`,
is covered too. -/

theorem allocated_mkDefault : Allocated (mkDefault : SimpleVector T) := Nat.zero_le _

theorem allocated_ofSizeValue (size : Nat) (value : T) (w : SimpleVector T)
    (h : ofSizeValue size value = .ok w) : Allocated w := by
  rw [ofSizeValue_ok] at h
  cases h
  simp only [Allocated, fillLoop_length, alloc_length]
  exact Nat.le_refl _

theorem allocated_ofInit (init : List T) (w : SimpleVector T) (h : ofInit init = .ok w) :
    Allocated w := by
  rw [ofInit_ok] at h
  cases h
  simp only [Allocated, copyLoop_length, alloc_length]
  exact Nat.le_refl _

theorem allocated_copy (v w : SimpleVector T) (h : copy v = .ok w) : Allocated w := by
  unfold Allocated
  rw [copy_capacity v w h]
  exact Nat.zero_le _

theorem allocated_swap (a b : SimpleVector T) (ha : Allocated a) (hb : Allocated b) :
    Allocated (swap a b).1 ∧ Allocated (swap a b).2 := ⟨hb, ha⟩

theorem allocated_move (v : SimpleVector T) (ha : Allocated v) :
    Allocated (move v).1 ∧ Allocated (move v).2 := ⟨ha, Nat.zero_le _⟩

theorem allocated_Reserve (v w : SimpleVector T) (n : Nat) (ha : Allocated v)
    (h : Reserve v n = .ok w) : Allocated w := by
  simp only [Reserve, std_copy, bind, Except.bind, pure, Except.pure] at h
  split_ifs at h
  · cases h
    simp only [Allocated, copyLoop_length, alloc_length]
    exact Nat.le_refl _
  · cases h
    exact ha

theorem allocated_ofReserve (n : Nat) (w : SimpleVector T) (h : ofReserve n = .ok w) :
    Allocated w := allocated_Reserve mkDefault w n allocated_mkDefault h

theorem allocated_assign (sameObject : Bool) (a b w : SimpleVector T) (ha : Allocated a)
    (h : assign sameObject a b = .ok w) : Allocated w := by
  cases sameObject
  · simp only [assign, Bool.false_eq_true, if_false, bind, Except.bind, pure, Except.pure] at h
    cases hc : copy b with
    | error e => rw [hc] at h; cases h
    | ok c =>
      rw [hc] at h
      cases h
      exact allocated_copy b c hc
  · simp only [assign, if_true, pure, Except.pure] at h
    cases h
    exact ha

theorem allocated_Clear (v : SimpleVector T) (ha : Allocated v) : Allocated (Clear v) := ha

theorem allocated_PopBack (v w : SimpleVector T) (ha : Allocated v) (h : PopBack v = .ok w) :
    Allocated w := by
  simp only [PopBack, pure, Except.pure] at h
  split_ifs at h
  cases h
  exact ha

theorem allocated_PushBack (v w : SimpleVector T) (item : Arg T) (ha : Allocated v)
    (h : PushBackMove v item = .ok w) : Allocated w := by
  have hc : max 1 (2 * v.capacity_) > v.capacity_ := by omega
  simp only [PushBackMove, hc, if_true] at h
  split_ifs at h
  · obtain ⟨x, _, e0⟩ := bind_eq_ok _ _ _ h
    obtain ⟨items, e1, e2⟩ := bind_eq_ok _ _ _ e0
    cases e2
    simp only [Allocated, assignSlot_length _ _ _ _ e1]
    exact ha
  · obtain ⟨v1, e1, e2⟩ := bind_eq_ok _ _ _ h
    obtain ⟨x, _, e0⟩ := bind_eq_ok _ _ _ e2
    obtain ⟨items, e3, e4⟩ := bind_eq_ok _ _ _ e0
    cases e4
    simp only [Allocated, assignSlot_length _ _ _ _ e3]
    exact allocated_Reserve v v1 _ ha e1

theorem allocated_Insert (v w : SimpleVector T) (k c : Nat) (value : Arg T)
    (ha : Allocated v) (h : Insert v k value = .ok (w, c)) : Allocated w := by
  unfold Insert at h
  split_ifs at h
  · obtain ⟨i1, e1, e2⟩ := bind_eq_ok _ _ _ h
    obtain ⟨x, _, e0⟩ := bind_eq_ok _ _ _ e2
    obtain ⟨i2, e3, e4⟩ := bind_eq_ok _ _ _ e0
    cases e4
    simp only [Allocated, assignSlot_length _ _ _ _ e3, std_move_backward_within_length _ _ _ _ _ e1]
    exact ha
  · obtain ⟨i1, e1, e2⟩ := bind_eq_ok _ _ _ h
    obtain ⟨i2, e3, e4⟩ := bind_eq_ok _ _ _ e2
    obtain ⟨x, _, e0⟩ := bind_eq_ok _ _ _ e4
    obtain ⟨i3, e5, e6⟩ := bind_eq_ok _ _ _ e0
    cases e6
    simp only [Allocated, assignSlot_length _ _ _ _ e5, std_move_backward_length _ _ _ _ _ _ e3,
      std_copy_length _ _ _ _ _ _ e1, alloc_length]
    exact Nat.le_refl _

theorem allocated_Erase (v w : SimpleVector T) (k c : Nat) (ha : Allocated v)
    (h : Erase v k = .ok (w, c)) : Allocated w := by
  unfold Erase at h
  split_ifs at h
  obtain ⟨i1, e1, e2⟩ := bind_eq_ok _ _ _ h
  cases e2
  simp only [Allocated, std_move_within_length _ _ _ _ _ e1]
  exact ha

theorem allocated_Resize [Inhabited T] (v w : SimpleVector T) (n : Nat) (ha : Allocated v)
    (h : Resize v n = .ok w) : Allocated w := by
  unfold Resize at h
  split_ifs at h
  · cases h; exact ha
  · cases h; exact ha
  · obtain ⟨v1, e1, e2⟩ := bind_eq_ok _ _ _ h
    obtain ⟨items, e3, e4⟩ := bind_eq_ok _ _ _ e2
    cases e4
    simp only [Allocated, std_fill_length _ _ _ _ _ e3]
    exact allocated_Reserve v v1 _ ha e1
  · obtain ⟨v1, e1, e2⟩ := bind_eq_ok _ _ _ h
    obtain ⟨items, e3, e4⟩ := bind_eq_ok _ _ _ e2
    cases e4
    cases e1
    simp only [Allocated, std_fill_length _ _ _ _ _ e3]
    exact ha

/-! ## `size_ ≤ capacity_` outside the copy constructor -/

/-- Every constructor other than the copy constructor returns a vector with
`size_ ≤ capacity_`. -/
theorem size_le_capacity_constructed [Inhabited T] (n : Nat) (x : T) (init : List T)
    (v : SimpleVector T) (hv : v.size_ ≤ v.capacity_) :
    (mkDefault : SimpleVector T).size_ ≤ (mkDefault : SimpleVector T).capacity_ ∧
    (∃ w, ofSizeValue n x = .ok w ∧ w.size_ ≤ w.capacity_) ∧
    (∃ w : SimpleVector T, ofSize n = .ok w ∧ w.size_ ≤ w.capacity_) ∧
    (∃ w, ofInit init = .ok w ∧ w.size_ ≤ w.capacity_) ∧
    (∃ w : SimpleVector T, ofReserve n = .ok w ∧ w.size_ ≤ w.capacity_) ∧
    (move v).1.size_ ≤ (move v).1.capacity_ ∧ (move v).2.size_ ≤ (move v).2.capacity_ := by
  refine ⟨Nat.le_refl 0, ⟨_, ofSizeValue_ok n x, Nat.le_refl _⟩,
    ⟨_, ofSizeValue_ok n default, Nat.le_refl _⟩, ⟨_, ofInit_ok init, Nat.le_refl _⟩, ?_, hv,
    Nat.le_refl 0⟩
  by_cases h : n ≤ 0
  · exact ⟨mkDefault, Reserve_noop mkDefault n h, Nat.le_refl 0⟩
  · exact ⟨_, Reserve_grow mkDefault n (by simp only [mkDefault]; omega) (Nat.zero_le _)
      (Nat.zero_le _), Nat.zero_le _⟩

/-- Every operation other than copy-assignment keeps `size_ ≤ capacity_`; `PushBack` and
`Insert` are called with an object that is not an element of the vector. -/
theorem size_le_capacity_kept [Inhabited T] (v u : SimpleVector T) (n k : Nat) (x : T)
    (hv : v.size_ ≤ v.capacity_) (ha : Allocated v)
    (hu : u.size_ ≤ u.capacity_) :
    (Clear v).size_ ≤ (Clear v).capacity_ ∧
    (∃ w, Resize v n = .ok w ∧ w.size_ ≤ w.capacity_) ∧
    (∃ w, Reserve v n = .ok w ∧ w.size_ ≤ w.capacity_) ∧
    (∃ w, PushBackMove v (Arg.object x) = .ok w ∧ w.size_ ≤ w.capacity_) ∧
    (v.size_ ≠ 0 → ∃ w, PopBack v = .ok w ∧ w.size_ ≤ w.capacity_) ∧
    (k ≤ v.size_ → ∃ w, Insert v k (Arg.object x) = .ok (w, k) ∧ w.size_ ≤ w.capacity_) ∧
    (k < v.size_ → ∃ w, Erase v k = .ok (w, k) ∧ w.size_ ≤ w.capacity_) ∧
    (swap v u).1.size_ ≤ (swap v u).1.capacity_ ∧
    (swap v u).2.size_ ≤ (swap v u).2.capacity_ := by
  have ha' : v.capacity_ ≤ v.items_.length := ha
  refine ⟨Nat.zero_le _, ?_, ?_, ?_, ?_, ?_, ?_, hu, hv⟩
  · obtain ⟨w, e, hs, hc, _⟩ := Resize_slots v n hv ha
    refine ⟨w, e, ?_⟩
    rw [hs, hc]
    by_cases h : n ≤ v.capacity_
    · rw [if_pos h]; exact h
    · rw [if_neg h]; omega
  · by_cases h : n ≤ v.capacity_
    · exact ⟨v, Reserve_noop v n h, hv⟩
    · refine ⟨_, Reserve_grow v n (by omega) (by omega) (by omega), ?_⟩
      simp only []; omega
  · obtain ⟨w, e, hs, hc, _⟩ := PushBack_slots v x hv ha
    refine ⟨w, e, ?_⟩
    rw [hs, hc]
    by_cases h : v.size_ < v.capacity_
    · rw [if_pos h]; omega
    · rw [if_neg h]; omega
  · intro h
    refine ⟨{ v with size_ := v.size_ - 1 }, ?_, ?_⟩
    · simp [PopBack, IsEmpty, h, pure, Except.pure]
    · simp only []; omega
  · intro h
    obtain ⟨w, e, hs, hc, _⟩ := Insert_slots v k x hv ha h
    refine ⟨w, e, ?_⟩
    rw [hs, hc]
    by_cases h' : v.size_ < v.capacity_
    · rw [if_pos h']; omega
    · rw [if_neg h']; omega
  · intro h
    obtain ⟨w, e, hs, hc, _⟩ := Erase_slots v k (by omega) h
    refine ⟨w, e, ?_⟩
    rw [hs, hc]; omega

end SimpleVector

/-! ## The comparison loops -/

/-- Reading the `n` slots from `first` on succeeds. -/
theorem readable_tail {T : Type} (xs : ArrayPtr T) (first n : Nat)
    (h : ∀ i, i < n + 1 → ∃ x, xs[first + i]? = some (some x)) :
    (∃ x, xs[first]? = some (some x)) ∧ ∀ i, i < n → ∃ x, xs[first + 1 + i]? = some (some x) := by
  refine ⟨by simpa using h 0 (by omega), fun i hi => ?_⟩
  have e : first + 1 + i = first + (i + 1) := by omega
  rw [e]
  exact h (i + 1) (by omega)

theorem equalLoop_spec {T : Type} [BEq T] (xs ys : ArrayPtr T) (first1 first2 n : Nat)
    (hx : ∀ i, i < n → ∃ x, xs[first1 + i]? = some (some x))
    (hy : ∀ i, i < n → ∃ y, ys[first2 + i]? = some (some y)) :
    ∃ r, equalLoop xs ys first1 first2 n = .ok r ∧
      (r = true ↔ ∀ i, i < n → ∃ x y, xs[first1 + i]? = some (some x) ∧
        ys[first2 + i]? = some (some y) ∧ (x == y) = true) := by
  induction n generalizing first1 first2 with
  | zero =>
    refine ⟨true, rfl, ?_⟩
    simp
  | succ n ih =>
    obtain ⟨⟨x, ex⟩, hx'⟩ := readable_tail xs first1 n hx
    obtain ⟨⟨y, ey⟩, hy'⟩ := readable_tail ys first2 n hy
    simp only [equalLoop, ex, ey]
    by_cases hxy : (x == y) = true
    · obtain ⟨r, er, hr⟩ := ih (first1 + 1) (first2 + 1) hx' hy'
      refine ⟨r, by simp only [hxy, if_true, er], ?_⟩
      rw [hr]
      constructor
      · intro h i hi
        cases i with
        | zero => exact ⟨x, y, ex, ey, hxy⟩
        | succ i =>
          have e1 : first1 + (i + 1) = first1 + 1 + i := by omega
          have e2 : first2 + (i + 1) = first2 + 1 + i := by omega
          rw [e1, e2]
          exact h i (by omega)
      · intro h i hi
        have e1 : first1 + 1 + i = first1 + (i + 1) := by omega
        have e2 : first2 + 1 + i = first2 + (i + 1) := by omega
        rw [e1, e2]
        exact h (i + 1) (by omega)
    · refine ⟨false, by simp only [hxy, if_false, Bool.false_eq_true], ?_⟩
      constructor
      · intro h; cases h
      · intro h
        obtain ⟨x', y', ex', ey', h'⟩ := h 0 (by omega)
        rw [Nat.add_zero, ex] at ex'
        rw [Nat.add_zero, ey] at ey'
        cases ex'
        cases ey'
        exact absurd h' hxy

/-- The lexicographic condition on positions `0 ..` and the one on positions `1 ..`, when
position `0` does not decide. -/
theorem lexCond_step (L G L' G' : Nat → Prop) (n1 n2 : Nat) (hL : ∀ i, L' i ↔ L (i + 1))
    (hG : ∀ i, G' i ↔ G (i + 1)) (h0 : ¬ L 0) (g0 : ¬ G 0) :
    ((∃ i, i < n1 + 1 ∧ i < n2 + 1 ∧ L i ∧ ∀ j, j < i → ¬ L j ∧ ¬ G j) ∨
      (n1 + 1 < n2 + 1 ∧ ∀ j, j < n1 + 1 → ¬ L j ∧ ¬ G j)) ↔
    ((∃ i, i < n1 ∧ i < n2 ∧ L' i ∧ ∀ j, j < i → ¬ L' j ∧ ¬ G' j) ∨
      (n1 < n2 ∧ ∀ j, j < n1 → ¬ L' j ∧ ¬ G' j)) := by
  constructor
  · rintro (⟨i, h1, h2, hl, hprev⟩ | ⟨hlt, hall⟩)
    · cases i with
      | zero => exact absurd hl h0
      | succ i =>
        refine Or.inl ⟨i, by omega, by omega, (hL i).2 hl, fun j hj => ?_⟩
        rw [hL, hG]
        exact hprev (j + 1) (by omega)
    · refine Or.inr ⟨by omega, fun j hj => ?_⟩
      rw [hL, hG]
      exact hall (j + 1) (by omega)
  · rintro (⟨i, h1, h2, hl, hprev⟩ | ⟨hlt, hall⟩)
    · refine Or.inl ⟨i + 1, by omega, by omega, (hL i).1 hl, fun j hj => ?_⟩
      cases j with
      | zero => exact ⟨h0, g0⟩
      | succ j =>
        have := hprev j (by omega)
        rw [hL, hG] at this
        exact this
    · refine Or.inr ⟨by omega, fun j hj => ?_⟩
      cases j with
      | zero => exact ⟨h0, g0⟩
      | succ j =>
        have := hall j (by omega)
        rw [hL, hG] at this
        exact this

/-- `xs[p] < ys[q]` on raw blocks: both slots hold a value and the first is less. -/
theorem slotLt_shift {T : Type} [LT T] (xs ys : ArrayPtr T) (first1 first2 i : Nat) :
    (∃ x y, xs[first1 + 1 + i]? = some (some x) ∧ ys[first2 + 1 + i]? = some (some y) ∧ x < y) ↔
    (∃ x y, xs[first1 + (i + 1)]? = some (some x) ∧ ys[first2 + (i + 1)]? = some (some y) ∧
      x < y) := by
  have e1 : first1 + 1 + i = first1 + (i + 1) := by omega
  have e2 : first2 + 1 + i = first2 + (i + 1) := by omega
  rw [e1, e2]

theorem lexicographicalCompareLoop_spec {T : Type} [LT T] [∀ x y : T, Decidable (x < y)]
    (xs ys : ArrayPtr T) (first1 first2 n1 n2 : Nat)
    (hx : ∀ i, i < n1 → ∃ x, xs[first1 + i]? = some (some x))
    (hy : ∀ i, i < n2 → ∃ y, ys[first2 + i]? = some (some y)) :
    ∃ r, lexicographicalCompareLoop xs ys first1 first2 n1 n2 = .ok r ∧
      (r = true ↔
        (∃ i, i < n1 ∧ i < n2 ∧
          (∃ x y, xs[first1 + i]? = some (some x) ∧ ys[first2 + i]? = some (some y) ∧ x < y) ∧
          ∀ j, j < i →
            ¬ (∃ x y, xs[first1 + j]? = some (some x) ∧ ys[first2 + j]? = some (some y) ∧
              x < y) ∧
            ¬ (∃ y x, ys[first2 + j]? = some (some y) ∧ xs[first1 + j]? = some (some x) ∧
              y < x)) ∨
        (n1 < n2 ∧ ∀ j, j < n1 →
            ¬ (∃ x y, xs[first1 + j]? = some (some x) ∧ ys[first2 + j]? = some (some y) ∧
              x < y) ∧
            ¬ (∃ y x, ys[first2 + j]? = some (some y) ∧ xs[first1 + j]? = some (some x) ∧
              y < x))) := by
  induction n1 generalizing first1 first2 n2 with
  | zero =>
    refine ⟨decide (n2 ≠ 0), by simp only [lexicographicalCompareLoop], ?_⟩
    simp only [decide_eq_true_eq]
    constructor
    · intro h
      exact Or.inr ⟨by omega, fun j hj => absurd hj (by omega)⟩
    · rintro (⟨i, h1, _⟩ | ⟨hlt, _⟩)
      · omega
      · omega
  | succ n1 ih =>
    cases n2 with
    | zero =>
      refine ⟨false, by simp only [lexicographicalCompareLoop], ?_⟩
      constructor
      · intro h; cases h
      · rintro (⟨i, _, h2, _⟩ | ⟨hlt, _⟩)
        · omega
        · omega
    | succ n2 =>
      obtain ⟨⟨x, ex⟩, hx'⟩ := readable_tail xs first1 n1 hx
      obtain ⟨⟨y, ey⟩, hy'⟩ := readable_tail ys first2 n2 hy
      simp only [lexicographicalCompareLoop, ex, ey]
      by_cases hlt : x < y
      · refine ⟨true, by simp only [hlt, if_true], ?_⟩
        refine ⟨fun _ => Or.inl ⟨0, by omega, by omega, ⟨x, y, ex, ey, hlt⟩, ?_⟩, fun _ => rfl⟩
        intro j hj
        omega
      · by_cases hgt : y < x
        · refine ⟨false, by simp only [hlt, hgt, if_true, if_false], ?_⟩
          constructor
          · intro h; cases h
          · have hG : ∃ y' x', ys[first2 + 0]? = some (some y') ∧
                xs[first1 + 0]? = some (some x') ∧ y' < x' := ⟨y, x, ey, ex, hgt⟩
            have hnL : ¬ ∃ x' y', xs[first1 + 0]? = some (some x') ∧
                ys[first2 + 0]? = some (some y') ∧ x' < y' := by
              rintro ⟨x', y', ex', ey', h'⟩
              rw [Nat.add_zero, ex] at ex'
              rw [Nat.add_zero, ey] at ey'
              cases ex'
              cases ey'
              exact hlt h'
            rintro (⟨i, _, _, hl, hprev⟩ | ⟨_, hall⟩)
            · cases i with
              | zero => exact absurd hl hnL
              | succ i => exact absurd hG (hprev 0 (by omega)).2
            · exact absurd hG (hall 0 (by omega)).2
        · obtain ⟨r, er, hr⟩ := ih (first1 + 1) (first2 + 1) n2 hx' hy'
          refine ⟨r, by simp only [hlt, hgt, if_false, er], ?_⟩
          rw [hr]
          have hnL : ¬ ∃ x' y', xs[first1 + 0]? = some (some x') ∧
              ys[first2 + 0]? = some (some y') ∧ x' < y' := by
            rintro ⟨x', y', ex', ey', h'⟩
            rw [Nat.add_zero, ex] at ex'
            rw [Nat.add_zero, ey] at ey'
            cases ex'
            cases ey'
            exact hlt h'
          have hnG : ¬ ∃ y' x', ys[first2 + 0]? = some (some y') ∧
              xs[first1 + 0]? = some (some x') ∧ y' < x' := by
            rintro ⟨y', x', ey', ex', h'⟩
            rw [Nat.add_zero, ex] at ex'
            rw [Nat.add_zero, ey] at ey'
            cases ex'
            cases ey'
            exact hgt h'
          exact (lexCond_step
            (fun i => ∃ x y, xs[first1 + i]? = some (some x) ∧ ys[first2 + i]? = some (some y) ∧
              x < y)
            (fun i => ∃ y x, ys[first2 + i]? = some (some y) ∧ xs[first1 + i]? = some (some x) ∧
              y < x)
            (fun i => ∃ x y, xs[first1 + 1 + i]? = some (some x) ∧
              ys[first2 + 1 + i]? = some (some y) ∧ x < y)
            (fun i => ∃ y x, ys[first2 + 1 + i]? = some (some y) ∧
              xs[first1 + 1 + i]? = some (some x) ∧ y < x)
            n1 n2 (fun i => slotLt_shift xs ys first1 first2 i)
            (fun i => slotLt_shift ys xs first2 first1 i) hnL hnG).symm

theorem compareLoops_trichotomy {T : Type} [LinearOrder T] (xs ys : ArrayPtr T)
    (first1 first2 n1 n2 : Nat)
    (hx : ∀ i, i < n1 → ∃ x, xs[first1 + i]? = some (some x))
    (hy : ∀ i, i < n2 → ∃ y, ys[first2 + i]? = some (some y)) :
    ∃ r1 r2 re, lexicographicalCompareLoop xs ys first1 first2 n1 n2 = .ok r1 ∧
      lexicographicalCompareLoop ys xs first2 first1 n2 n1 = .ok r2 ∧
      (if n1 = n2 then equalLoop xs ys first1 first2 n1 else .ok false) = .ok re ∧
      ((r1 = true ∧ re = false ∧ r2 = false) ∨ (r1 = false ∧ re = true ∧ r2 = false) ∨
        (r1 = false ∧ re = false ∧ r2 = true)) := by
  induction n1 generalizing first1 first2 n2 with
  | zero =>
    cases n2 with
    | zero =>
      exact ⟨false, false, true, by simp [lexicographicalCompareLoop],
        by simp [lexicographicalCompareLoop], by simp [equalLoop], Or.inr (Or.inl ⟨rfl, rfl, rfl⟩)⟩
    | succ n2 =>
      exact ⟨true, false, false, by simp [lexicographicalCompareLoop],
        by simp [lexicographicalCompareLoop], by simp, Or.inl ⟨rfl, rfl, rfl⟩⟩
  | succ n1 ih =>
    cases n2 with
    | zero =>
      exact ⟨false, true, false, by simp [lexicographicalCompareLoop],
        by simp [lexicographicalCompareLoop], by simp, Or.inr (Or.inr ⟨rfl, rfl, rfl⟩)⟩
    | succ n2 =>
      obtain ⟨⟨x, ex⟩, hx'⟩ := readable_tail xs first1 n1 hx
      obtain ⟨⟨y, ey⟩, hy'⟩ := readable_tail ys first2 n2 hy
      simp only [lexicographicalCompareLoop, equalLoop, ex, ey, Nat.add_right_cancel_iff]
      rcases lt_trichotomy x y with hlt | heq | hgt
      · have h1 : ¬ y < x := not_lt_of_lt hlt
        have h2 : ¬ (x == y) = true := by simp [ne_of_lt hlt]
        refine ⟨true, false, false, by simp only [hlt, if_true], by simp only [h1, hlt, if_true, if_false],
          ?_, Or.inl ⟨rfl, rfl, rfl⟩⟩
        simp only [h2, if_false, ite_self, Bool.false_eq_true]
      · subst heq
        obtain ⟨r1, r2, re, e1, e2, e3, h⟩ := ih (first1 + 1) (first2 + 1) n2 hx' hy'
        refine ⟨r1, r2, re, ?_, ?_, ?_, h⟩
        · simp only [lt_irrefl, if_false, e1]
        · simp only [lt_irrefl, if_false, e2]
        · simp only [beq_self_eq_true, if_true, e3]
      · have h1 : ¬ x < y := not_lt_of_lt hgt
        have h2 : ¬ (x == y) = true := by simp [ne_of_gt hgt]
        refine ⟨false, true, false, by simp only [h1, hgt, if_true, if_false],
          by simp only [hgt, if_true], ?_, Or.inr (Or.inr ⟨rfl, rfl, rfl⟩)⟩
        simp only [h2, if_false, ite_self, Bool.false_eq_true]

namespace SimpleVector

variable {T : Type}

/-! ## The comparison operators on vectors whose elements can be read -/

theorem idx_eq_ok_iff (v : SimpleVector T) (i : Nat) (x : T) :
    idx v i = .ok x ↔ v.items_[i]? = some (some x) := by
  unfold idx
  constructor
  · intro h
    split at h
    · rename_i y hy
      cases h
      exact hy
    · cases h
  · intro h
    simp only [h]

theorem readable_iff (v : SimpleVector T) (i : Nat) :
    readable v i = true ↔ ∃ x, v.items_[i]? = some (some x) := by
  unfold readable
  constructor
  · intro h
    split at h
    · rename_i y hy
      exact ⟨y, hy⟩
    · cases h
  · rintro ⟨x, h⟩
    simp only [h]

theorem live_slots (v : SimpleVector T) (h : Live v) :
    ∀ i, i < v.size_ → ∃ x, v.items_[0 + i]? = some (some x) := by
  intro i hi
  rw [Nat.zero_add]
  exact (readable_iff v i).1 (h i hi)

theorem live_size_le_length (v : SimpleVector T) (h : Live v) : v.size_ ≤ v.items_.length := by
  by_cases h0 : v.size_ = 0
  · omega
  · obtain ⟨x, hx⟩ := (readable_iff v (v.size_ - 1)).1 (h (v.size_ - 1) (by omega))
    have : v.size_ - 1 < v.items_.length := by
      by_contra hc
      rw [List.getElem?_eq_none (by omega)] at hx
      cases hx
    omega

theorem operatorLt_loop [LT T] [∀ x y : T, Decidable (x < y)] (a b : SimpleVector T)
    (ha : Live a) (hb : Live b) :
    operatorLt a b = lexicographicalCompareLoop a.items_ b.items_ 0 0 a.size_ b.size_ := by
  have h1 := live_size_le_length a ha
  have h2 := live_size_le_length b hb
  simp [operatorLt, std_lexicographical_compare, begin_, end_, h1, h2]

theorem operatorEq_loop [BEq T] (a b : SimpleVector T) (ha : Live a) (hb : Live b) :
    operatorEq a b =
      if a.size_ = b.size_ then equalLoop a.items_ b.items_ 0 0 a.size_ else .ok false := by
  have h1 := live_size_le_length a ha
  have h2 := live_size_le_length b hb
  by_cases h : a.size_ = b.size_
  · have h3 : b.size_ ≤ a.items_.length := by omega
    simp [operatorEq, std_equal, begin_, end_, GetSize, h, h2, h3]
  · simp [operatorEq, GetSize, h, pure, Except.pure]

theorem elemLt_iff [LT T] (a b : SimpleVector T) (i j : Nat) :
    ElemLt a i b j ↔
      ∃ x y, a.items_[0 + i]? = some (some x) ∧ b.items_[0 + j]? = some (some y) ∧ x < y := by
  simp only [ElemLt, idx_eq_ok_iff, Nat.zero_add]

theorem elemEq_iff [BEq T] (a b : SimpleVector T) (i j : Nat) :
    ElemEq a i b j ↔
      ∃ x y, a.items_[0 + i]? = some (some x) ∧ b.items_[0 + j]? = some (some y) ∧
        (x == y) = true := by
  simp only [ElemEq, idx_eq_ok_iff, Nat.zero_add]

/-- `operator==` returns, and returns `true` exactly when the sizes and the elements agree. -/
theorem operatorEq_spec [BEq T] (a b : SimpleVector T) (ha : Live a) (hb : Live b) :
    ∃ r, operatorEq a b = .ok r ∧
      (r = true ↔ a.size_ = b.size_ ∧ ∀ i, i < a.size_ → ElemEq a i b i) := by
  rw [operatorEq_loop a b ha hb]
  by_cases h : a.size_ = b.size_
  · obtain ⟨r, er, hr⟩ := equalLoop_spec a.items_ b.items_ 0 0 a.size_ (live_slots a ha)
      (by rw [h]; exact live_slots b hb)
    refine ⟨r, by simp only [h, if_true] at er ⊢; exact er, ?_⟩
    rw [hr]
    simp only [elemEq_iff, h, true_and]
  · refine ⟨false, by simp only [h, if_false], ?_⟩
    simp [h]

/-- `operator<` returns, and returns `true` exactly in the two lexicographic cases. -/
theorem operatorLt_spec [LT T] [∀ x y : T, Decidable (x < y)] (a b : SimpleVector T)
    (ha : Live a) (hb : Live b) :
    ∃ r, operatorLt a b = .ok r ∧
      (r = true ↔
        (∃ i, i < a.size_ ∧ i < b.size_ ∧ ElemLt a i b i ∧
          ∀ j, j < i → ¬ ElemLt a j b j ∧ ¬ ElemLt b j a j) ∨
        (a.size_ < b.size_ ∧ ∀ j, j < a.size_ → ¬ ElemLt a j b j ∧ ¬ ElemLt b j a j)) := by
  rw [operatorLt_loop a b ha hb]
  obtain ⟨r, er, hr⟩ := lexicographicalCompareLoop_spec a.items_ b.items_ 0 0 a.size_ b.size_
    (live_slots a ha) (live_slots b hb)
  refine ⟨r, er, ?_⟩
  rw [hr]
  simp only [elemLt_iff]

/-- Over a linear order, `a < b`, `a == b` and `b < a` return, and exactly one is `true`. -/
theorem operators_trichotomy [LinearOrder T] (a b : SimpleVector T) (ha : Live a)
    (hb : Live b) :
    ∃ r1 r2 re, operatorLt a b = .ok r1 ∧ operatorLt b a = .ok r2 ∧ operatorEq a b = .ok re ∧
      ((r1 = true ∧ re = false ∧ r2 = false) ∨ (r1 = false ∧ re = true ∧ r2 = false) ∨
        (r1 = false ∧ re = false ∧ r2 = true)) := by
  rw [operatorLt_loop a b ha hb, operatorLt_loop b a hb ha, operatorEq_loop a b ha hb]
  exact compareLoops_trichotomy a.items_ b.items_ 0 0 a.size_ b.size_ (live_slots a ha)
    (live_slots b hb)

end SimpleVector

namespace SimpleVector

variable {T : Type}

/-! ## The claims on copies, comparisons, constructors and round trips -/

theorem read_error (item : Arg T) (block : Option (ArrayPtr T)) (e : Fault)
    (h : item.read block = .error e) : e = Fault.Undefined := by
  cases item with
  | object x => rw [read_object] at h; cases h
  | element i =>
    cases block with
    | none => simp only [Arg.read] at h; cases h; rfl
    | some b =>
      simp only [Arg.read] at h
      split at h
      · cases h
      · cases h; rfl

/-- `PushBack` on a non-empty vector whose `capacity_` is 0 is undefined, whatever the
argument: it reserves one slot and then needs `size_ + 1` of them. -/
theorem PushBackMove_capacity_zero (w : SimpleVector T) (item : Arg T) (hc : w.capacity_ = 0)
    (h1 : 1 ≤ w.size_) : PushBackMove w item = .error .Undefined := by
  have hlt : ¬ w.size_ < w.capacity_ := by omega
  have hmax : max 1 (2 * w.capacity_) = 1 := by omega
  have hg : 1 > w.capacity_ := by omega
  simp only [PushBackMove, hlt, if_false, hmax, hg, if_true]
  by_cases hs : w.size_ ≤ w.items_.length ∧ w.size_ ≤ 1
  · rw [Reserve_grow w 1 (by omega) hs.1 hs.2]
    have : ¬ w.size_ < 1 := by omega
    cases hr : item.read none with
    | error e =>
      rw [read_error item none e hr]
      rfl
    | ok x => simp only [bind, Except.bind, assignSlot, grown_length, this, if_false]
  · have e : Reserve w 1 = .error .Undefined := by
      have : ¬ (0 ≤ w.size_ ∧ w.size_ ≤ w.items_.length ∧ 0 + (w.size_ - 0) ≤ 1) := by
        intro h'; exact hs ⟨h'.2.1, by omega⟩
      simp only [Reserve, hg, if_true, std_copy, alloc_length, bind, Except.bind, this, if_false]
    simp only [e, bind, Except.bind]

/-- On a vector with `1 ≤ size_ ≤ capacity_` whose block holds `capacity_` slots, copy
construction returns a vector on which `PushBack` is undefined. -/
theorem copy_then_PushBack_undefined (v : SimpleVector T) (item : Arg T)
    (h1 : 1 ≤ v.size_) (hsc : v.size_ ≤ v.capacity_) (ha : Allocated v) :
    ∃ w, copy v = .ok w ∧ PushBackMove w item = .error .Undefined :=
  ⟨_, copy_ok v hsc ha, PushBackMove_capacity_zero _ item rfl h1⟩

/-- C11 (fails on the code).  The claim: after copy-constructing `w` from `v` and calling
`w.PushBack(x)`, `w` holds the elements of `v` followed by `x`, without an access outside the
block of `w`.  The copy of `{1, 2}` has `capacity_` 0, so `PushBack(7)` on it reserves
`max(1, 2*0) = 1` slot and moves the two elements into it: a write outside the new block. -/
theorem copy_then_pushBack_overflows :
    ofInit [1, 2] = .ok sample12 ∧ sample12.GetSize ≤ sample12.GetCapacity ∧
    copy sample12 = .ok sample12copy ∧ sample12copy.GetCapacity = 0 ∧
    PushBackMove sample12copy (Arg.object 7) = .error .Undefined := by
  refine ⟨by decide, by decide, by decide, by decide, by decide⟩

/-- C12.  On vectors whose elements below the size can be read, `a == b` returns, and is `true`
exactly when `GetSize(a) == GetSize(b)` and `a[i] == b[i]` for every `i < GetSize(a)`; the result
is the same for any two vectors with these sizes and these elements, whatever their capacities
and their slots at indices `>= size`; and `a != b` returns the negation. -/
theorem operatorEq_sizes_and_elements [BEq T] (a b : SimpleVector T) (ha : Live a)
    (hb : Live b) :
    ∃ r, operatorEq a b = .ok r ∧ operatorNe a b = .ok (!r) ∧
      (r = true ↔ a.GetSize = b.GetSize ∧ ∀ i, i < a.GetSize → ElemEq a i b i) ∧
      ∀ a' b' : SimpleVector T, a'.GetSize = a.GetSize → b'.GetSize = b.GetSize →
        (∀ i, i < a.GetSize → idx a' i = idx a i) → (∀ i, i < b.GetSize → idx b' i = idx b i) →
        operatorEq a' b' = .ok r := by
  obtain ⟨r, er, hr⟩ := operatorEq_spec a b ha hb
  refine ⟨r, er, by simp only [operatorNe, er, bind, Except.bind]; rfl, hr, ?_⟩
  intro a' b' hsa hsb hea heb
  simp only [GetSize] at hsa hsb hea heb
  have hlive : ∀ u u' : SimpleVector T, Live u → u'.size_ = u.size_ →
      (∀ i, i < u.size_ → idx u' i = idx u i) → Live u' := by
    intro u u' hu hs he i hi
    obtain ⟨x, hx⟩ := (readable_iff u i).1 (hu i (by omega))
    have := he i (by omega)
    rw [(idx_eq_ok_iff u i x).2 hx] at this
    exact (readable_iff u' i).2 ⟨x, (idx_eq_ok_iff u' i x).1 this⟩
  obtain ⟨r', er', hr'⟩ := operatorEq_spec a' b' (hlive a a' ha hsa hea) (hlive b b' hb hsb heb)
  have hiff : r' = true ↔ r = true := by
    rw [hr, hr', hsa, hsb]
    constructor
    · rintro ⟨h1, h2⟩
      refine ⟨h1, fun i hi => ?_⟩
      obtain ⟨x, y, e1, e2, e3⟩ := h2 i hi
      exact ⟨x, y, by rw [← hea i hi]; exact e1, by rw [← heb i (by omega)]; exact e2, e3⟩
    · rintro ⟨h1, h2⟩
      refine ⟨h1, fun i hi => ?_⟩
      obtain ⟨x, y, e1, e2, e3⟩ := h2 i hi
      exact ⟨x, y, by rw [hea i hi]; exact e1, by rw [heb i (by omega)]; exact e2, e3⟩
  have : r' = r := by
    cases r <;> cases r' <;> simp_all
  rw [er', this]

/-- Witness for C12: `{1, 2}` and its copy, whose capacities are 2 and 0. -/
theorem operatorEq_sizes_and_elements_witness :
    Live sample12 ∧ Live sample12copy ∧
    ∃ r, operatorEq sample12 sample12copy = .ok r ∧ operatorNe sample12 sample12copy = .ok (!r) ∧
      (r = true ↔ sample12.GetSize = sample12copy.GetSize ∧
        ∀ i, i < sample12.GetSize → ElemEq sample12 i sample12copy i) ∧
      ∀ a' b' : SimpleVector Int, a'.GetSize = sample12.GetSize →
        b'.GetSize = sample12copy.GetSize →
        (∀ i, i < sample12.GetSize → idx a' i = idx sample12 i) →
        (∀ i, i < sample12copy.GetSize → idx b' i = idx sample12copy i) →
        operatorEq a' b' = .ok r :=
  ⟨by decide, by decide, operatorEq_sizes_and_elements sample12 sample12copy (by decide)
    (by decide)⟩

/-- C13.  On vectors whose elements below the size can be read, `a < b` returns, and is `true`
exactly when either there is an index `i < min(sizes)` with `a[i] < b[i]` and, for every `j < i`,
neither `a[j] < b[j]` nor `b[j] < a[j]`; or `GetSize(a) < GetSize(b)` and at no index below
`GetSize(a)` one element is less than the other.  `{1, 2} < {1, 2, 3}` and `{1, 2, 3} < {1, 3}`
are true. -/
theorem operatorLt_lexicographic [LT T] [∀ x y : T, Decidable (x < y)] (a b : SimpleVector T)
    (ha : Live a) (hb : Live b) :
    (∃ r, operatorLt a b = .ok r ∧
      (r = true ↔
        (∃ i, i < min a.GetSize b.GetSize ∧ ElemLt a i b i ∧
          ∀ j, j < i → ¬ ElemLt a j b j ∧ ¬ ElemLt b j a j) ∨
        (a.GetSize < b.GetSize ∧
          ∀ j, j < a.GetSize → ¬ ElemLt a j b j ∧ ¬ ElemLt b j a j))) ∧
    (ofInit [1, 2] = .ok sample12 ∧ ofInit [1, 2, 3] = .ok sample123 ∧
      ofInit [1, 3] = .ok sample13 ∧ operatorLt sample12 sample123 = .ok true ∧
      operatorLt sample123 sample13 = .ok true) := by
  refine ⟨?_, by decide, by decide, by decide, by decide, by decide⟩
  obtain ⟨r, er, hr⟩ := operatorLt_spec a b ha hb
  refine ⟨r, er, ?_⟩
  rw [hr]
  simp only [GetSize, Nat.lt_min, and_assoc]

/-- Witness for C13: `{1, 3}` against `{1, 2, 3}`. -/
theorem operatorLt_lexicographic_witness :
    Live sample13 ∧ Live sample123 ∧
    ((∃ r, operatorLt sample13 sample123 = .ok r ∧
      (r = true ↔
        (∃ i, i < min sample13.GetSize sample123.GetSize ∧ ElemLt sample13 i sample123 i ∧
          ∀ j, j < i → ¬ ElemLt sample13 j sample123 j ∧ ¬ ElemLt sample123 j sample13 j) ∨
        (sample13.GetSize < sample123.GetSize ∧
          ∀ j, j < sample13.GetSize →
            ¬ ElemLt sample13 j sample123 j ∧ ¬ ElemLt sample123 j sample13 j))) ∧
    (ofInit [1, 2] = .ok sample12 ∧ ofInit [1, 2, 3] = .ok sample123 ∧
      ofInit [1, 3] = .ok sample13 ∧ operatorLt sample12 sample123 = .ok true ∧
      operatorLt sample123 sample13 = .ok true)) :=
  ⟨by decide, by decide, operatorLt_lexicographic sample13 sample123 (by decide) (by decide)⟩

/-- C14.  Over a linearly ordered element type, on vectors whose elements below the size can be
read, the six operators return, and: `a <= b` iff `a < b` or `a == b`; `a > b` is the result of
`b < a`; `a >= b` iff `a > b` or `a == b`; exactly one of `a < b`, `a == b`, `a > b` is true. -/
theorem derived_operators_total_order [LinearOrder T] (a b : SimpleVector T) (ha : Live a)
    (hb : Live b) :
    ∃ rlt req rgt rle rge : Bool, operatorLt a b = .ok rlt ∧ operatorEq a b = .ok req ∧
      operatorGt a b = .ok rgt ∧ operatorLe a b = .ok rle ∧ operatorGe a b = .ok rge ∧
      (rle = true ↔ rlt = true ∨ req = true) ∧
      operatorLt b a = .ok rgt ∧
      (rge = true ↔ rgt = true ∨ req = true) ∧
      ((rlt = true ∧ req = false ∧ rgt = false) ∨ (rlt = false ∧ req = true ∧ rgt = false) ∨
        (rlt = false ∧ req = false ∧ rgt = true)) := by
  obtain ⟨r1, r2, re, e1, e2, e3, h⟩ := operators_trichotomy a b ha hb
  refine ⟨r1, re, r2, !r2, !r1, e1, e3, ?_, ?_, ?_, ?_, e2, ?_, h⟩
  · simp only [operatorGt, operatorLe, e2, bind, Except.bind, pure, Except.pure, Bool.not_not]
  · simp only [operatorLe, e2, bind, Except.bind, pure, Except.pure]
  · simp only [operatorGe, e1, bind, Except.bind, pure, Except.pure]
  · rcases h with ⟨h1, h2, h3⟩ | ⟨h1, h2, h3⟩ | ⟨h1, h2, h3⟩ <;> simp [h1, h2, h3]
  · rcases h with ⟨h1, h2, h3⟩ | ⟨h1, h2, h3⟩ | ⟨h1, h2, h3⟩ <;> simp [h1, h2, h3]

/-- Witness for C14: `{1, 2}` against `{1, 3}`. -/
theorem derived_operators_total_order_witness :
    Live sample12 ∧ Live sample13 ∧
    ∃ rlt req rgt rle rge : Bool, operatorLt sample12 sample13 = .ok rlt ∧
      operatorEq sample12 sample13 = .ok req ∧
      operatorGt sample12 sample13 = .ok rgt ∧ operatorLe sample12 sample13 = .ok rle ∧
      operatorGe sample12 sample13 = .ok rge ∧
      (rle = true ↔ rlt = true ∨ req = true) ∧
      operatorLt sample13 sample12 = .ok rgt ∧
      (rge = true ↔ rgt = true ∨ req = true) ∧
      ((rlt = true ∧ req = false ∧ rgt = false) ∨ (rlt = false ∧ req = true ∧ rgt = false) ∨
        (rlt = false ∧ req = false ∧ rgt = true)) :=
  ⟨by decide, by decide, derived_operators_total_order sample12 sample13 (by decide)
    (by decide)⟩

end SimpleVector

namespace SimpleVector

variable {T : Type}

/-- Copy-assignment from a vector with `size_ ≤ capacity_` whose block holds `capacity_` slots
returns a vector with the size and the elements of the right-hand side, which compares equal
to it; self-assignment returns the vector itself. -/
theorem assign_of_size_le_capacity [BEq T] [LawfulBEq T] (a b : SimpleVector T)
    (hsc : b.size_ ≤ b.capacity_) (hab : Allocated b) :
    (∃ w, assign false a b = .ok w ∧ w.size_ = b.size_ ∧
      (∀ i, i < b.size_ → idx w i = idx b i) ∧ (Live b → operatorEq w b = .ok true)) ∧
    assign true a a = .ok a := by
  have hab' : b.capacity_ ≤ b.items_.length := hab
  have hslot : ∀ i, i < b.size_ →
      (copyLoop b.items_ (ArrayPtr.alloc b.capacity_) 0 0 b.size_)[i]? = b.items_[i]? := by
    intro i hi
    rw [grown_getElem? _ _ _ _ (by omega) hsc, if_pos hi]
  refine ⟨⟨⟨copyLoop b.items_ (ArrayPtr.alloc b.capacity_) 0 0 b.size_, b.size_, 0⟩, ?_, rfl,
    ?_, ?_⟩, rfl⟩
  · simp only [assign, Bool.false_eq_true, if_false, copy_ok b hsc hab, bind, Except.bind]
    rfl
  · intro i hi
    exact idx_congr b _ i i (hslot i hi)
  · intro hb
    have hw : Live (⟨copyLoop b.items_ (ArrayPtr.alloc b.capacity_) 0 0 b.size_,
        b.size_, 0⟩ : SimpleVector T) := by
      intro i hi
      obtain ⟨x, hx⟩ := (readable_iff b i).1 (hb i hi)
      exact (readable_iff _ i).2 ⟨x, by rw [hslot i hi]; exact hx⟩
    obtain ⟨r, er, hr⟩ := operatorEq_spec _ b hw hb
    have : r = true := by
      rw [hr]
      refine ⟨rfl, fun i hi => ?_⟩
      obtain ⟨x, hx⟩ := (readable_iff b i).1 (hb i hi)
      exact ⟨x, x, (idx_eq_ok_iff _ i x).2 (by rw [hslot i hi]; exact hx),
        (idx_eq_ok_iff b i x).2 hx, beq_self_eq_true x⟩
    rw [er, this]

/-- C15 (fails on the code).  The claim: for all vectors `a` and `b`, after `a = b`, `a` has the
size and the elements of `b`.  Take for `b` the copy of `{1, 2}`, a vector of size 2 whose
`capacity_` the copy constructor left at 0: `a = b` copy-constructs from `b`, which allocates
`b.capacity_ = 0` slots and copies the two elements of `b` into them, a write outside the
block. -/
theorem assign_from_copy_overflows :
    ofInit [1, 2] = .ok sample12 ∧ copy sample12 = .ok sample12copy ∧
    sample12copy.GetSize = 2 ∧ sample12copy.GetCapacity = 0 ∧
    assign false mkDefault sample12copy = .error .Undefined ∧
    (∃ a, assign false mkDefault sample12 = .ok a ∧
      assign false mkDefault a = .error .Undefined) := by
  refine ⟨by decide, by decide, by decide, by decide, by decide, sample12copy, by decide,
    by decide⟩

/-- C16.  `SimpleVector(count, value)` returns a vector with `size == capacity == count` whose
elements all equal `value`; `SimpleVector(count)` is `SimpleVector(count, Type())`, so its
elements all equal the default value; the initializer-list constructor returns a vector with
`size == capacity == len` and `v[i]` the `i`-th element of the list. -/
theorem constructors_fill [Inhabited T] (count : Nat) (value : T) (init : List T) :
    (∃ v, ofSizeValue count value = .ok v ∧ v.GetSize = count ∧ v.GetCapacity = count ∧
      ∀ i, i < count → idx v i = .ok value) ∧
    ((ofSize count : Except Fault (SimpleVector T)) = ofSizeValue count default ∧
      ∃ v : SimpleVector T, ofSize count = .ok v ∧ v.GetSize = count ∧ v.GetCapacity = count ∧
        ∀ i, i < count → idx v i = .ok default) ∧
    (∃ v, ofInit init = .ok v ∧ v.GetSize = init.length ∧ v.GetCapacity = init.length ∧
      ∀ i (h : i < init.length), idx v i = .ok init[i]) := by
  have hfill : ∀ (x : T) (i : Nat), i < count →
      (fillLoop (ArrayPtr.alloc count) 0 x count)[i]? = some (some x) := by
    intro x i hi
    rw [fillLoop_getElem? _ _ _ _ _ (by rw [alloc_length]; omega)]
    have : 0 ≤ i ∧ i < 0 + count := by omega
    rw [if_pos this]
  refine ⟨⟨_, ofSizeValue_ok count value, rfl, rfl, fun i hi => ?_⟩, ⟨rfl, _,
    ofSizeValue_ok count default, rfl, rfl, fun i hi => ?_⟩,
    ⟨_, ofInit_ok init, rfl, rfl, fun i hi => ?_⟩⟩
  · exact idx_of_slot _ i value (hfill value i hi)
  · exact idx_of_slot _ i default (hfill default i hi)
  · apply idx_of_slot
    simp only []
    rw [copyLoop_getElem? _ _ _ _ _ _ (by simp) (by rw [alloc_length]; omega)]
    have : 0 ≤ i ∧ i < 0 + init.length := by omega
    rw [if_pos this]
    simp [hi]

/-- C17.  `Clear()` yields `GetSize() == 0` and `IsEmpty() == true` and leaves `GetCapacity()`
and the block unchanged. -/
theorem clear_keeps_capacity (v : SimpleVector T) :
    (Clear v).GetSize = 0 ∧ (Clear v).IsEmpty = true ∧
    (Clear v).GetCapacity = v.GetCapacity ∧ (Clear v).items_ = v.items_ :=
  ⟨rfl, rfl, rfl, rfl⟩

/-- C18.  On a non-empty vector `PopBack()` returns; the size is one less, the capacity is
unchanged, and every element at an index below the new size is unchanged. -/
theorem popBack_decrements (v : SimpleVector T) (h : v.IsEmpty = false) :
    ∃ w, PopBack v = .ok w ∧ w.GetSize + 1 = v.GetSize ∧ w.GetCapacity = v.GetCapacity ∧
      ∀ i, i < w.GetSize → idx w i = idx v i := by
  have h0 : v.size_ ≠ 0 := by
    intro h'
    simp [IsEmpty, h'] at h
  refine ⟨{ v with size_ := v.size_ - 1 }, ?_, ?_, rfl, fun _ _ => rfl⟩
  · simp only [PopBack, h, Bool.false_eq_true, if_false]
    rfl
  · simp only [GetSize]
    omega

/-- Witness for C18: `PopBack()` on `{1, 2}`. -/
theorem popBack_decrements_witness :
    sample12.IsEmpty = false ∧
    ∃ w, PopBack sample12 = .ok w ∧ w.GetSize + 1 = sample12.GetSize ∧
      w.GetCapacity = sample12.GetCapacity ∧ ∀ i, i < w.GetSize → idx w i = idx sample12 i :=
  ⟨by decide, popBack_decrements sample12 (by decide)⟩

/-- C20 as stated fails on the code: the value may be passed as a reference to an element of
the vector.  On the full vector `{1, 2}`, `Insert(end(), v[0])` reads the argument from the old
block before that block is replaced and gives `[1, 2, 1]`, while `PushBack(std::move(v[0]))`
reads it after `Reserve` released the old block. -/
theorem insert_at_end_differs_on_own_element :
    sample12.GetSize ≤ sample12.GetCapacity ∧ idx sample12 0 = .ok 1 ∧
    (∃ w, Insert sample12 sample12.end_ (Arg.element 0) = .ok (w, w.begin_ + 2) ∧
      w.GetSize = 3 ∧ idx w 0 = .ok 1 ∧ idx w 1 = .ok 2 ∧ idx w 2 = .ok 1) ∧
    PushBackMove sample12 (Arg.element 0) = .error .Undefined := by
  refine ⟨by decide, by decide, ⟨⟨[some 1, some 2, some 1, none], 3, 4⟩, by decide, by decide,
    by decide, by decide, by decide⟩, by decide⟩

/-- C20, amended.  On a vector with `size <= capacity` (whose block holds its `capacity` slots),
for `x` an object that is not an element of the vector, `Insert(end(), x)` and `PushBack(x)`
through the `Type&&` overload both return, and the two vectors have the same size, the same
capacity and the same elements; the capacity is the original one when `size < capacity` and
`max(1, 2*capacity)` when `size == capacity`, also for capacity 0. -/
theorem insert_at_end_is_pushBack (v : SimpleVector T) (x : T)
    (hsc : v.GetSize ≤ v.GetCapacity) (ha : Allocated v) :
    ∃ w1 c w2, Insert v v.end_ (Arg.object x) = .ok (w1, c) ∧
      PushBackMove v (Arg.object x) = .ok w2 ∧
      c + 1 = w1.end_ ∧ w1.GetSize = w2.GetSize ∧ w1.GetCapacity = w2.GetCapacity ∧
      (∀ i, i < w1.GetSize → idx w1 i = idx w2 i) ∧
      (v.GetSize < v.GetCapacity → w1.GetCapacity = v.GetCapacity) ∧
      (v.GetSize = v.GetCapacity → w1.GetCapacity = max 1 (2 * v.GetCapacity)) := by
  simp only [GetSize, GetCapacity, end_] at hsc ⊢
  obtain ⟨w1, e1, hs1, hc1, _, hlow1, hx1, _⟩ := Insert_slots v v.size_ x hsc ha (Nat.le_refl _)
  obtain ⟨w2, e2, hs2, hc2, _, hx2, hlow2⟩ := PushBack_slots v x hsc ha
  refine ⟨w1, v.size_, w2, e1, e2, by omega, by omega, by rw [hc1, hc2], ?_, ?_, ?_⟩
  · intro i hi
    apply idx_congr
    by_cases h : i < v.size_
    · rw [hlow1 i h, hlow2 i h]
    · have : i = v.size_ := by omega
      rw [this, hx1, hx2]
  · intro h; rw [hc1, if_pos h]
  · intro h
    have : ¬ v.size_ < v.capacity_ := by omega
    rw [hc1, if_neg this]

/-- Witness for C20: the default-constructed vector, whose capacity is 0. -/
theorem insert_at_end_is_pushBack_witness :
    (mkDefault : SimpleVector Int).GetSize ≤ (mkDefault : SimpleVector Int).GetCapacity ∧
    Allocated (mkDefault : SimpleVector Int) ∧
    ∃ w1 c w2, Insert (mkDefault : SimpleVector Int) (mkDefault : SimpleVector Int).end_
        (Arg.object 7) = .ok (w1, c) ∧
      PushBackMove mkDefault (Arg.object 7) = .ok w2 ∧
      c + 1 = w1.end_ ∧ w1.GetSize = w2.GetSize ∧ w1.GetCapacity = w2.GetCapacity ∧
      (∀ i, i < w1.GetSize → idx w1 i = idx w2 i) ∧
      ((mkDefault : SimpleVector Int).GetSize < (mkDefault : SimpleVector Int).GetCapacity →
        w1.GetCapacity = (mkDefault : SimpleVector Int).GetCapacity) ∧
      ((mkDefault : SimpleVector Int).GetSize = (mkDefault : SimpleVector Int).GetCapacity →
        w1.GetCapacity = max 1 (2 * (mkDefault : SimpleVector Int).GetCapacity)) :=
  ⟨by decide, by decide, insert_at_end_is_pushBack mkDefault 7 (by decide) (by decide)⟩

end SimpleVector

/-! ## What a guarded range algorithm that returned has done -/

theorem std_copy_inv {S : Type} (src dst r : List S) (first last d : Nat)
    (h : std_copy src first last dst d = .ok r) :
    (first ≤ last ∧ last ≤ src.length ∧ d + (last - first) ≤ dst.length) ∧
      r = copyLoop src dst first d (last - first) := by
  unfold std_copy at h
  split_ifs at h with hc
  cases h
  exact ⟨hc, rfl⟩

theorem std_move_within_inv {S : Type} (buf r : List S) (first last d : Nat)
    (h : std_move_within buf first last d = .ok r) :
    (first ≤ last ∧ last ≤ buf.length ∧ d + (last - first) ≤ buf.length) ∧
      r = moveLoopWithin buf first d (last - first) := by
  unfold std_move_within at h
  split_ifs at h with hc
  cases h
  exact ⟨hc, rfl⟩

theorem std_move_backward_inv {S : Type} (src dst r : List S) (first last d_last : Nat)
    (h : std_move_backward src first last dst d_last = .ok r) :
    (first ≤ last ∧ last ≤ src.length ∧ last - first ≤ d_last ∧ d_last ≤ dst.length) ∧
      r = moveBackwardLoop src dst last d_last (last - first) := by
  unfold std_move_backward at h
  split_ifs at h with hc
  cases h
  exact ⟨hc, rfl⟩

theorem std_move_backward_within_inv {S : Type} (buf r : List S) (first last d_last : Nat)
    (h : std_move_backward_within buf first last d_last = .ok r) :
    (first ≤ last ∧ last ≤ buf.length ∧ last - first ≤ d_last ∧ d_last ≤ buf.length) ∧
      r = moveBackwardLoopWithin buf last d_last (last - first) := by
  unfold std_move_backward_within at h
  split_ifs at h with hc
  cases h
  exact ⟨hc, rfl⟩

theorem std_fill_inv {T : Type} (buf r : ArrayPtr T) (first last : Nat) (value : T)
    (h : std_fill buf first last value = .ok r) :
    (first ≤ last ∧ last ≤ buf.length) ∧ r = fillLoop buf first value (last - first) := by
  unfold std_fill at h
  split_ifs at h with hc
  cases h
  exact ⟨hc, rfl⟩

theorem assignSlot_inv {T : Type} (buf r : ArrayPtr T) (index : Nat) (value : T)
    (h : assignSlot buf index value = .ok r) :
    index < buf.length ∧ r = buf.set index (some value) := by
  unfold assignSlot at h
  split_ifs at h with hc
  cases h
  exact ⟨hc, rfl⟩

namespace SimpleVector

variable {T : Type}

/-! ## The elements below `size_` can be read in every vector the class can produce

No hypothesis relates `size_` and `capacity_`: the copy constructor's result, whose `capacity_`
is `0`, is covered too. -/

theorem live_of_slots (v : SimpleVector T)
    (h : ∀ i, i < v.size_ → ∃ x, v.items_[i]? = some (some x)) : Live v :=
  fun i hi => (readable_iff v i).2 (h i hi)

theorem slots_of_live (v : SimpleVector T) (h : Live v) :
    ∀ i, i < v.size_ → ∃ x, v.items_[i]? = some (some x) :=
  fun i hi => (readable_iff v i).1 (h i hi)

theorem live_mkDefault : Live (mkDefault : SimpleVector T) :=
  fun _ hi => absurd hi (Nat.not_lt_zero _)

theorem live_ofSizeValue (size : Nat) (value : T) (w : SimpleVector T)
    (h : ofSizeValue size value = .ok w) : Live w := by
  rw [ofSizeValue_ok] at h
  cases h
  apply live_of_slots
  intro i hi
  refine ⟨value, ?_⟩
  simp only [] at hi ⊢
  rw [fillLoop_getElem? _ _ _ _ _ (by rw [alloc_length]; omega)]
  have : 0 ≤ i ∧ i < 0 + size := by omega
  rw [if_pos this]

theorem live_ofInit (init : List T) (w : SimpleVector T) (h : ofInit init = .ok w) :
    Live w := by
  rw [ofInit_ok] at h
  cases h
  apply live_of_slots
  intro i hi
  simp only [] at hi ⊢
  refine ⟨init[i], ?_⟩
  rw [copyLoop_getElem? _ _ _ _ _ _ (by simp) (by rw [alloc_length]; omega)]
  have : 0 ≤ i ∧ i < 0 + init.length := by omega
  rw [if_pos this]
  simp [hi]

/-- A block that received the live slots of `v` by `std::copy` holds them. -/
theorem live_of_copied (v : SimpleVector T) (n c : Nat) (items : ArrayPtr T) (hv : Live v)
    (h : std_copy v.items_ 0 v.size_ (ArrayPtr.alloc n) 0 = .ok items) :
    Live ⟨items, v.size_, c⟩ := by
  obtain ⟨⟨_, h2, h3⟩, rfl⟩ := std_copy_inv _ _ _ _ _ _ h
  rw [alloc_length] at h3
  apply live_of_slots
  intro i hi
  simp only [Nat.sub_zero] at hi ⊢
  rw [grown_getElem? _ _ _ _ h2 (by omega), if_pos hi]
  exact slots_of_live v hv i hi

theorem live_copy (v w : SimpleVector T) (hv : Live v) (h : copy v = .ok w) : Live w := by
  unfold copy at h
  obtain ⟨items, e1, e2⟩ := bind_eq_ok _ _ _ h
  cases e2
  exact live_of_copied v v.capacity_ 0 items hv e1

theorem live_swap (a b : SimpleVector T) (ha : Live a) (hb : Live b) :
    Live (swap a b).1 ∧ Live (swap a b).2 := ⟨hb, ha⟩

theorem live_move (v : SimpleVector T) (hv : Live v) :
    Live (move v).1 ∧ Live (move v).2 := ⟨hv, live_mkDefault⟩

theorem Reserve_size (v w : SimpleVector T) (n : Nat) (h : Reserve v n = .ok w) :
    w.size_ = v.size_ := by
  unfold Reserve at h
  split_ifs at h
  · obtain ⟨items, _, e2⟩ := bind_eq_ok _ _ _ h
    cases e2
    rfl
  · cases h
    rfl

theorem live_Reserve (v w : SimpleVector T) (n : Nat) (hv : Live v)
    (h : Reserve v n = .ok w) : Live w := by
  unfold Reserve at h
  split_ifs at h
  · obtain ⟨items, e1, e2⟩ := bind_eq_ok _ _ _ h
    cases e2
    exact live_of_copied v n n items hv e1
  · cases h
    exact hv

theorem live_ofReserve (n : Nat) (w : SimpleVector T) (h : ofReserve n = .ok w) : Live w :=
  live_Reserve mkDefault w n live_mkDefault h

theorem live_assign (sameObject : Bool) (a b w : SimpleVector T) (ha : Live a) (hb : Live b)
    (h : assign sameObject a b = .ok w) : Live w := by
  cases sameObject
  · simp only [assign, Bool.false_eq_true, if_false] at h
    obtain ⟨c, e1, e2⟩ := bind_eq_ok _ _ _ h
    cases e2
    exact live_copy b c hb e1
  · simp only [assign, if_true] at h
    cases h
    exact ha

theorem live_Clear (v : SimpleVector T) : Live (Clear v) :=
  fun _ hi => absurd hi (Nat.not_lt_zero _)

theorem live_PopBack (v w : SimpleVector T) (hv : Live v) (h : PopBack v = .ok w) :
    Live w := by
  unfold PopBack at h
  split_ifs at h
  cases h
  intro i hi
  exact hv i (by simp only [] at hi; omega)

/-- Assigning to the slot at index `size_` makes one more element readable. -/
theorem live_of_assigned_end (u : SimpleVector T) (x : T) (c : Nat) (items : ArrayPtr T)
    (hu : Live u) (h : assignSlot u.items_ u.size_ x = .ok items) :
    Live ⟨items, u.size_ + 1, c⟩ := by
  obtain ⟨hl, rfl⟩ := assignSlot_inv _ _ _ _ h
  apply live_of_slots
  intro i hi
  simp only [] at hi ⊢
  by_cases hi' : i < u.size_
  · have : u.size_ ≠ i := by omega
    rw [List.getElem?_set_ne this]
    exact slots_of_live u hu i hi'
  · have : i = u.size_ := by omega
    subst this
    exact ⟨x, by simp only [List.getElem?_set, if_true, hl]⟩

theorem live_PushBack (v w : SimpleVector T) (item : Arg T) (hv : Live v)
    (h : PushBackMove v item = .ok w) : Live w := by
  have hc : max 1 (2 * v.capacity_) > v.capacity_ := by omega
  simp only [PushBackMove, hc, if_true] at h
  split_ifs at h
  · obtain ⟨x, _, e0⟩ := bind_eq_ok _ _ _ h
    obtain ⟨items, e1, e2⟩ := bind_eq_ok _ _ _ e0
    cases e2
    exact live_of_assigned_end v x _ items hv e1
  · obtain ⟨v1, e1, e2⟩ := bind_eq_ok _ _ _ h
    obtain ⟨x, _, e0⟩ := bind_eq_ok _ _ _ e2
    obtain ⟨items, e3, e4⟩ := bind_eq_ok _ _ _ e0
    cases e4
    exact live_of_assigned_end v1 x _ items (live_Reserve v v1 _ hv e1) e3

theorem live_Erase (v w : SimpleVector T) (k c : Nat) (hv : Live v)
    (h : Erase v k = .ok (w, c)) : Live w := by
  have h' := h
  unfold Erase at h'
  split_ifs at h' with hne
  obtain ⟨i1, e1, _⟩ := bind_eq_ok _ _ _ h'
  obtain ⟨⟨g1, g2, _⟩, _⟩ := std_move_within_inv _ _ _ _ _ e1
  obtain ⟨w', ew, hs, _, _, hlow, hhigh⟩ := Erase_slots v k g2 (by omega)
  rw [ew] at h
  cases h
  apply live_of_slots
  intro i hi
  by_cases hik : i < k
  · rw [hlow i hik]
    exact slots_of_live v hv i (by omega)
  · rw [hhigh i (by omega) (by omega)]
    exact slots_of_live v hv (i + 1) (by omega)

theorem live_Resize [Inhabited T] (v w : SimpleVector T) (n : Nat) (hv : Live v)
    (h : Resize v n = .ok w) : Live w := by
  have hfilled : ∀ (u : SimpleVector T) (items : ArrayPtr T) (c : Nat), Live u →
      std_fill u.items_ u.size_ n default = .ok items → Live ⟨items, n, c⟩ := by
    intro u items c hu hf
    obtain ⟨⟨g1, g2⟩, rfl⟩ := std_fill_inv _ _ _ _ _ hf
    apply live_of_slots
    intro i hi
    simp only [] at hi ⊢
    rw [fillLoop_getElem? _ _ _ _ _ (by omega)]
    by_cases hc : u.size_ ≤ i ∧ i < u.size_ + (n - u.size_)
    · rw [if_pos hc]
      exact ⟨default, rfl⟩
    · rw [if_neg hc]
      exact slots_of_live u hu i (by omega)
  unfold Resize at h
  split_ifs at h
  · cases h; exact hv
  · cases h
    intro i hi
    exact hv i (by simp only [] at hi; omega)
  · obtain ⟨v1, e1, e2⟩ := bind_eq_ok _ _ _ h
    obtain ⟨items, e3, e4⟩ := bind_eq_ok _ _ _ e2
    cases e4
    exact hfilled v1 items _ (live_Reserve v v1 _ hv e1) e3
  · obtain ⟨v1, e1, e2⟩ := bind_eq_ok _ _ _ h
    obtain ⟨items, e3, e4⟩ := bind_eq_ok _ _ _ e2
    cases e4
    cases e1
    exact hfilled v items _ hv e3

theorem live_Insert (v w : SimpleVector T) (k c : Nat) (value : Arg T) (hv : Live v)
    (h : Insert v k value = .ok (w, c)) : Live w := by
  unfold Insert at h
  split_ifs at h with hk hlt
  · obtain ⟨i1, e1, e2⟩ := bind_eq_ok _ _ _ h
    obtain ⟨x, _, e0⟩ := bind_eq_ok _ _ _ e2
    obtain ⟨i2, e3, e4⟩ := bind_eq_ok _ _ _ e0
    cases e4
    obtain ⟨⟨_, g2, _, g4⟩, rfl⟩ := std_move_backward_within_inv _ _ _ _ _ e1
    obtain ⟨g5, rfl⟩ := assignSlot_inv _ _ _ _ e3
    apply live_of_slots
    intro i hi
    simp only [] at hi ⊢
    by_cases hik : k = i
    · subst hik
      exact ⟨x, by simp only [List.getElem?_set, if_true, g5]⟩
    · rw [List.getElem?_set_ne hik,
        moveBackwardLoopWithin_getElem? _ _ _ _ _ (by omega) (by omega) g4]
      by_cases hc : v.size_ + 1 - (v.size_ - k) ≤ i ∧ i < v.size_ + 1
      · rw [if_pos hc]
        exact slots_of_live v hv _ (by omega)
      · rw [if_neg hc]
        exact slots_of_live v hv i (by omega)
  · obtain ⟨i1, e1, e2⟩ := bind_eq_ok _ _ _ h
    obtain ⟨i2, e3, e4⟩ := bind_eq_ok _ _ _ e2
    obtain ⟨x, _, e0⟩ := bind_eq_ok _ _ _ e4
    obtain ⟨i3, e5, e6⟩ := bind_eq_ok _ _ _ e0
    cases e6
    obtain ⟨⟨_, f2, f3⟩, rfl⟩ := std_copy_inv _ _ _ _ _ _ e1
    obtain ⟨⟨_, g2, _, g4⟩, rfl⟩ := std_move_backward_inv _ _ _ _ _ _ e3
    obtain ⟨g5, rfl⟩ := assignSlot_inv _ _ _ _ e5
    rw [alloc_length] at f3
    apply live_of_slots
    intro i hi
    simp only [] at hi ⊢
    by_cases hik : k = i
    · subst hik
      exact ⟨x, by simp only [List.getElem?_set, if_true, g5]⟩
    · rw [List.getElem?_set_ne hik,
        moveBackwardLoop_getElem? _ _ _ _ _ _ (by omega) (by omega) (by omega) g4]
      by_cases hc : v.size_ + 1 - (v.size_ - k) ≤ i ∧ i < v.size_ + 1
      · rw [if_pos hc]
        exact slots_of_live v hv _ (by omega)
      · rw [if_neg hc]
        simp only [Nat.sub_zero]
        rw [grown_getElem? _ _ _ _ (by omega) (by omega), if_pos (by omega)]
        exact slots_of_live v hv i (by omega)

end SimpleVector
